import Mathlib

/-!
Verification of the flight-planner routing core (`src/flight_planner.py`).

The data model (Flight, Itinerary, route graph) and the two label-setting
searches (`find_earliest_itinerary`, `find_cheapest_itinerary`) are embedded
shallowly: Python dicts become association lists whose `insert` is a cons
(lookup returns the newest binding, as dict assignment overwrites), the
`heapq` priority queue becomes a list viewed as a multiset with a
minimum-extraction function using Python's tuple ordering, and the two
`while` loops become fuel-indexed recursions (`none` marks a computation
that would still be running when the fuel — chosen beyond the loop's
provable iteration bound — is exhausted).
-/

namespace FlightPlanner

/-- The fixed minimum-layover policy constant (minutes). -/
def MIN_LAYOVER_MINUTES : Int := 60

/-- Cabin is the closed enumeration from the source's `Cabin` literal type. -/
inductive Cabin
  | economy
  | business
  | first
deriving DecidableEq, Repr

/-- One scheduled flight leg, mirroring the frozen dataclass `Flight`. -/
structure Flight where
  origin : String
  dest : String
  flight_number : String
  depart : Int
  arrive : Int
  economy : Int
  business : Int
  first : Int
deriving DecidableEq, Repr

/-- `Flight.price_for`: the cabin-indexed price lookup. -/
def Flight.price_for (f : Flight) (c : Cabin) : Int :=
  match c with
  | .economy => f.economy
  | .business => f.business
  | .first => f.first

/-- An ordered sequence of flight legs, mirroring the dataclass `Itinerary`. -/
structure Itinerary where
  flights : List Flight
deriving DecidableEq, Repr

/-- `Itinerary.is_empty`. -/
def Itinerary.is_empty (it : Itinerary) : Bool := it.flights.isEmpty

/-- `Itinerary.origin`: origin of the first leg, `None` when empty. -/
def Itinerary.origin (it : Itinerary) : Option String :=
  it.flights.head?.map Flight.origin

/-- `Itinerary.dest`: destination of the last leg, `None` when empty. -/
def Itinerary.destination (it : Itinerary) : Option String :=
  it.flights.getLast?.map Flight.dest

/-- `Itinerary.depart_time`. -/
def Itinerary.depart_time (it : Itinerary) : Option Int :=
  it.flights.head?.map Flight.depart

/-- `Itinerary.arrive_time`. -/
def Itinerary.arrive_time (it : Itinerary) : Option Int :=
  it.flights.getLast?.map Flight.arrive

/-- `Itinerary.total_price`: sum of the cabin-indexed prices of all legs. -/
def Itinerary.total_price (it : Itinerary) (c : Cabin) : Int :=
  (it.flights.map (fun f => f.price_for c)).sum

/-- `Itinerary.num_stops`: `max(0, len(flights) - 1)`. -/
def Itinerary.num_stops (it : Itinerary) : Int :=
  max 0 ((it.flights.length : Int) - 1)

/-- Association-list lookup: the model of Python dict indexing.  Insertion
is a cons at the head, so the first (newest) binding wins, matching dict
key overwrite. -/
def alookup {α : Type} : List (String × α) → String → Option α
  | [], _ => none
  | (k, v) :: rest, key => if key = k then some v else alookup rest key

/-- The route graph: a mapping from origin code to its outbound flights in
insertion order (`Graph = Dict[str, List[Flight]]`). -/
abbrev Graph : Type := List (String × List Flight)

/-- `graph.get(airport, [])`. -/
def getFlights (g : Graph) (a : String) : List Flight :=
  (alookup g a).getD []

/-- One `graph.setdefault(f.origin, []).append(f)` step: append to the list
of an existing key (keys keep their insertion order) or add the key at the
end. -/
def addFlight : List (String × List Flight) → Flight → List (String × List Flight)
  | [], f => [(f.origin, [f])]
  | (k, v) :: rest, f =>
      if f.origin = k then (k, v ++ [f]) :: rest else (k, v) :: addFlight rest f

/-- `build_graph`. -/
def build_graph (flights : List Flight) : Graph :=
  flights.foldl addFlight []

/-- Python tuple ordering on `(time, airport)` heap entries. -/
def qltE (x y : Int × String) : Bool :=
  decide (x.1 < y.1) || (decide (x.1 = y.1) && decide (x.2 < y.2))

/-- Python tuple ordering on `(cost, time, airport)` heap entries. -/
def qltC (x y : Int × Int × String) : Bool :=
  decide (x.1 < y.1) ||
    (decide (x.1 = y.1) &&
      (decide (x.2.1 < y.2.1) || (decide (x.2.1 = y.2.1) && decide (x.2.2 < y.2.2))))

/-- The leftmost minimal element of a list under a strict comparison. -/
def findMin {α : Type} (lt : α → α → Bool) : List α → Option α
  | [] => none
  | x :: xs =>
    match findMin lt xs with
    | none => some x
    | some m => if lt m x then some m else some x

/-- Remove the first occurrence of an element. -/
def removeFirst {α : Type} [DecidableEq α] : List α → α → List α
  | [], _ => []
  | x :: xs, y => if x = y then xs else x :: removeFirst xs y

/-- `heapq.heappop` on a list viewed as a multiset: extract a minimal
element (under the strict tuple order; equal tuples are interchangeable)
together with the remaining entries. -/
def popMin {α : Type} [DecidableEq α] (lt : α → α → Bool) (l : List α) :
    Option (α × List α) :=
  match findMin lt l with
  | none => none
  | some m => some (m, removeFirst l m)

/-- Queue of the earliest-arrival search: `(time, airport)` entries. -/
abbrev PQ1 := List (Int × String)

/-- Queue of the cheapest-fare search: `(cost, time, airport)` entries. -/
abbrev PQ2 := List (Int × Int × String)

/-- `best_time` / `best_cost` maps. -/
abbrev IMap := List (String × Int)

/-- The `prev` predecessor-flight map. -/
abbrev PMap := List (String × Flight)

/-- The relaxation guard `d not in m or x < m[d]` shared by both searches. -/
def improves (m : IMap) (d : String) (x : Int) : Bool :=
  match alookup m d with
  | none => true
  | some b => decide (x < b)

theorem improves_iff (m : IMap) (d : String) (x : Int) :
    improves m d x = true ↔ alookup m d = none ∨ ∃ b, alookup m d = some b ∧ x < b := by
  unfold improves
  cases h : alookup m d with
  | none => simp
  | some b => simp

/-- One relaxation of an outbound flight in `find_earliest_itinerary`:
skip when the departure is below the feasibility threshold, otherwise
update `best_time`/`prev` and push on strict improvement. -/
def relaxE (start : String) (ed : Int) (airport : String) (time : Int)
    (st : PQ1 × IMap × PMap) (fl : Flight) : PQ1 × IMap × PMap :=
  if fl.depart < (if airport = start then ed else time + MIN_LAYOVER_MINUTES) then st
  else if improves st.2.1 fl.dest fl.arrive then
    (st.1 ++ [(fl.arrive, fl.dest)], (fl.dest, fl.arrive) :: st.2.1,
      (fl.dest, fl) :: st.2.2)
  else st

/-- The main loop of `find_earliest_itinerary`, fuel-indexed.  Returns the
final `(best_time, prev)` state when the loop exits (empty queue, or
break on popping the destination); `none` when the fuel runs out. -/
def earliestLoop (g : Graph) (start dest : String) (ed : Int) :
    Nat → PQ1 → IMap → PMap → Option (IMap × PMap)
  | 0, _, _, _ => none
  | fuel + 1, pq, bt, prev =>
    match popMin qltE pq with
    | none => some (bt, prev)
    | some ((time, airport), pq1) =>
      if airport = dest then some (bt, prev)
      else
        let st := (getFlights g airport).foldl (relaxE start ed airport time) (pq1, bt, prev)
        earliestLoop g start dest ed fuel st.1 st.2.1 st.2.2

/-- The backward reconstruction of `find_earliest_itinerary`: collect
predecessor flights from `dest` down to `start` (in collection order, to be
reversed by the caller).  `some none` models the `return None` taken when a
predecessor is missing; the outer `none` marks fuel exhaustion (a
predecessor cycle, on which the Python loop would not terminate). -/
def walkE : Nat → PMap → String → String → Option (Option (List Flight))
  | 0, _, _, _ => none
  | fuel + 1, prev, start, cur =>
    if cur = start then some (some [])
    else
      match alookup prev cur with
      | none => some none
      | some fl => (walkE fuel prev start fl.origin).map (Option.map (fl :: ·))

/-- Total number of flight occurrences in the graph's adjacency lists. -/
def totalFlights (g : Graph) : Nat :=
  (g.map (fun p => p.2.length)).sum

/-- Fuel given to either search loop: strictly more than the iteration
bound `2 * (number of flights) + 1` established by the termination lemmas. -/
def fuelFor (g : Graph) : Nat := 2 * totalFlights g + 3

/-- `find_earliest_itinerary`.  The outer `Option` is the termination
marker of the embedding; the inner one is the function's own
`Optional[Itinerary]`. -/
def find_earliest_itinerary (g : Graph) (start dest : String) (ed : Int) :
    Option (Option Itinerary) :=
  match earliestLoop g start dest ed (fuelFor g) [(ed, start)] [(start, ed)] [] with
  | none => none
  | some (_, prev) =>
    if alookup prev dest = none ∧ start ≠ dest then some none
    else
      match walkE (prev.length + 1) prev start dest with
      | none => none
      | some none => some none
      | some (some fs) => some (some ⟨fs.reverse⟩)

/-- One relaxation of an outbound flight in `find_cheapest_itinerary`:
the threshold check is as in the earliest search, the relaxation compares
cumulative cabin cost, and `best_cost`, `best_time` and `prev` are updated
together on strict improvement. -/
def relaxC (start : String) (ed : Int) (cabin : Cabin) (airport : String)
    (cost time : Int) (st : PQ2 × IMap × IMap × PMap) (fl : Flight) :
    PQ2 × IMap × IMap × PMap :=
  if fl.depart < (if airport = start then ed else time + MIN_LAYOVER_MINUTES) then st
  else if improves st.2.1 fl.dest (cost + fl.price_for cabin) then
    (st.1 ++ [(cost + fl.price_for cabin, fl.arrive, fl.dest)],
      (fl.dest, cost + fl.price_for cabin) :: st.2.1,
      (fl.dest, fl.arrive) :: st.2.2.1, (fl.dest, fl) :: st.2.2.2)
  else st

/-- The main loop of `find_cheapest_itinerary`, fuel-indexed; returns the
final `(best_cost, best_time, prev)` state when the loop exits. -/
def cheapestLoop (g : Graph) (start dest : String) (ed : Int) (cabin : Cabin) :
    Nat → PQ2 → IMap → IMap → PMap → Option (IMap × IMap × PMap)
  | 0, _, _, _, _ => none
  | fuel + 1, pq, bc, bt, prev =>
    match popMin qltC pq with
    | none => some (bc, bt, prev)
    | some ((cost, time, airport), pq1) =>
      if airport = dest then some (bc, bt, prev)
      else
        let st := (getFlights g airport).foldl
          (relaxC start ed cabin airport cost time) (pq1, bc, bt, prev)
        cheapestLoop g start dest ed cabin fuel st.1 st.2.1 st.2.2.1 st.2.2.2

/-- Result of the cheapest search's unguarded backward walk:
`keyMissing` models the implicit `KeyError` of `prev[cur]`, `fuelOut`
marks a walk that would not terminate (a predecessor cycle). -/
inductive WalkOut
  | fuelOut
  | keyMissing
  | ok (fs : List Flight)
deriving DecidableEq, Repr

/-- The backward reconstruction of `find_cheapest_itinerary` (collection
order; no defensive check for a missing predecessor). -/
def walkC : Nat → PMap → String → String → WalkOut
  | 0, _, _, _ => .fuelOut
  | fuel + 1, prev, start, cur =>
    if cur = start then .ok []
    else
      match alookup prev cur with
      | none => .keyMissing
      | some fl =>
        match walkC fuel prev start fl.origin with
        | .ok fs => .ok (fl :: fs)
        | r => r

/-- `find_cheapest_itinerary`.  The outer `none` marks an abnormal outcome
of the embedding: fuel exhaustion in the loop or the walk, or the
`KeyError` branch of the unguarded reconstruction. -/
def find_cheapest_itinerary (g : Graph) (start dest : String) (ed : Int)
    (cabin : Cabin) : Option (Option Itinerary) :=
  match cheapestLoop g start dest ed cabin (fuelFor g)
      [(0, ed, start)] [(start, 0)] [(start, ed)] [] with
  | none => none
  | some (_, _, prev) =>
    if alookup prev dest = none then some none
    else
      match walkC (prev.length + 1) prev start dest with
      | .fuelOut => none
      | .keyMissing => none
      | .ok fs => some (some ⟨fs.reverse⟩)

/-- Feasible continuation: `FeasFrom g dest v a fs` says the flight list
`fs` chains through the graph from location `v` (reached at time `a`) to
`dest`, each flight departing at least `MIN_LAYOVER_MINUTES` after the
previous arrival. -/
def FeasFrom (g : Graph) (dest : String) : String → Int → List Flight → Prop
  | v, _, [] => v = dest
  | v, a, f :: rest =>
      f.origin = v ∧ f ∈ getFlights g v ∧ a + MIN_LAYOVER_MINUTES ≤ f.depart ∧
        FeasFrom g dest f.dest f.arrive rest

/-- A feasible path: a nonempty chained flight list from `start` to `dest`
whose first flight departs no earlier than `ed` and whose every later
flight departs at least `MIN_LAYOVER_MINUTES` after the previous arrival. -/
def FeasiblePath (g : Graph) (ed : Int) (start dest : String) (fs : List Flight) : Prop :=
  match fs with
  | [] => False
  | f :: rest =>
      f.origin = start ∧ f ∈ getFlights g start ∧ ed ≤ f.depart ∧
        FeasFrom g dest f.dest f.arrive rest

/-- Final arrival time of a flight list, `a` when the list is empty. -/
def finalArr (a : Int) : List Flight → Int
  | [] => a
  | f :: rest => finalArr f.arrive rest

/-- Sum of cabin prices over a flight list. -/
def pathCost (cabin : Cabin) (fs : List Flight) : Int :=
  (fs.map (fun f => f.price_for cabin)).sum

/-- All flights of the graph list satisfy `arrive > depart` (the
construction-time invariant of validated flight records). -/
def GraphValid (g : Graph) : Prop :=
  ∀ p ∈ g, ∀ fl ∈ p.2, fl.depart < fl.arrive

/-- Every adjacency list holds only flights whose origin is its key (true
of every graph produced by `build_graph`). -/
def GraphWF (g : Graph) : Prop :=
  ∀ p ∈ g, ∀ fl ∈ p.2, fl.origin = p.1

/-- All prices of the graph's flights are non-negative (validated
records). -/
def GraphNonneg (g : Graph) : Prop :=
  ∀ p ∈ g, ∀ fl ∈ p.2, 0 ≤ fl.economy ∧ 0 ≤ fl.business ∧ 0 ≤ fl.first

/-- Feasibility of a continuation is decidable. -/
def decFeasFrom (g : Graph) (dest : String) :
    (fs : List Flight) → (v : String) → (a : Int) → Decidable (FeasFrom g dest v a fs)
  | [], v, a => by unfold FeasFrom; infer_instance
  | f :: rest, v, a => by
      unfold FeasFrom
      have := decFeasFrom g dest rest f.dest f.arrive
      infer_instance

instance (g : Graph) (dest v : String) (a : Int) (fs : List Flight) :
    Decidable (FeasFrom g dest v a fs) := decFeasFrom g dest fs v a

instance (g : Graph) (ed : Int) (start dest : String) (fs : List Flight) :
    Decidable (FeasiblePath g ed start dest fs) := by
  unfold FeasiblePath; cases fs <;> infer_instance

/-- Numeric value of a non-empty digit run, the core of Python `int()`. -/
def digitsVal (cs : List Char) : Option Int :=
  if cs ≠ [] ∧ cs.all Char.isDigit then
    some (cs.foldl (fun n c => 10 * n + ((c.toNat : Int) - 48)) 0)
  else none

/-- Python `int(s)`: an optional sign followed by digits.  (Python also
tolerates surrounding whitespace and underscores between digits; those
inputs cannot arise from the whitespace-split fields fed to it here.) -/
def pyInt (s : String) : Option Int :=
  match s.data with
  | '-' :: rest => (digitsVal rest).map (fun n => -n)
  | '+' :: rest => digitsVal rest
  | cs => digitsVal cs

/-- Split a character list on a separator character. -/
def splitCharList (sep : Char) : List Char → List (List Char)
  | [] => [[]]
  | c :: cs =>
    let r := splitCharList sep cs
    if c = sep then [] :: r
    else
      match r with
      | [] => [[c]]
      | w :: ws => (c :: w) :: ws

/-- Python `str.split()` (no argument): split on whitespace runs,
discarding empty chunks. -/
def pySplitWs (cs : List Char) : List (List Char) :=
  ((splitCharList ' ' (cs.map (fun c => if c.isWhitespace then ' ' else c))).filter
    (fun w => w ≠ []))

/-- Python `str.strip()`. -/
def pyStrip (cs : List Char) : List Char :=
  ((cs.dropWhile Char.isWhitespace).reverse.dropWhile Char.isWhitespace).reverse

/-- `parse_time`: reject unless the string is `H:M` with integral parts in
range, and return minutes since midnight.  `none` models the raised
`ValueError` (malformed shapes that raise before the range check — no
colon, or a colon count other than one — also map to `none`). -/
def parse_time (hhmm : String) : Option Int :=
  match splitCharList ':' hhmm.data with
  | [hs, ms] =>
    match pyInt ⟨hs⟩, pyInt ⟨ms⟩ with
    | some h, some m =>
        if 0 ≤ h ∧ h < 24 ∧ 0 ≤ m ∧ m < 60 then some (h * 60 + m) else none
    | _, _ => none
  | _ => none

/-- `parse_flight_line_txt`: `some none` is the skipped blank/comment
line, `none` models any raised `ValueError` (wrong field count, bad time,
arrival not after departure, unparsable price). -/
def parse_flight_line_txt (line : String) : Option (Option Flight) :=
  if pyStrip line.data = [] ∨ (pyStrip line.data).head? = some '#' then some none
  else
    match pySplitWs (pyStrip line.data) with
    | [o, d, num, dep, arr, e, b, f] =>
      match parse_time ⟨dep⟩, parse_time ⟨arr⟩ with
      | some dep_m, some arr_m =>
        if arr_m ≤ dep_m then none
        else
          match pyInt ⟨e⟩, pyInt ⟨b⟩, pyInt ⟨f⟩ with
          | some ei, some bi, some fi =>
              some (some ⟨⟨o⟩, ⟨d⟩, ⟨num⟩, dep_m, arr_m, ei, bi, fi⟩)
          | _, _, _ => none
      | _, _ => none
    | _ => none

/-- The per-row record construction of `load_flights_csv` (lines 136-151):
parse both times, require arrival after departure, convert the three
prices with `int()`.  `none` models a raised `ValueError`. -/
def csv_row_to_flight (origin dest flight_number depart arrive economy business fst : String) :
    Option Flight :=
  match parse_time depart, parse_time arrive with
  | some dep, some arr =>
    if arr ≤ dep then none
    else
      match pyInt economy, pyInt business, pyInt fst with
      | some e, some b, some f =>
          some ⟨origin, dest, flight_number, dep, arr, e, b, f⟩
      | _, _, _ => none
  | _, _ => none

/-! ## Concrete instances used by the counterexample and witness theorems -/

/-- Expensive-late leg S→A of the cost counterexample graph. -/
def cxF1 : Flight := ⟨"S", "A", "F1", 100, 200, 10, 10, 10⟩

/-- Cheap-early leg S→A (higher price, much earlier arrival). -/
def cxF2 : Flight := ⟨"S", "A", "F2", 0, 10, 50, 50, 50⟩

/-- Cheap connection A→D only reachable from the early arrival. -/
def cxF3 : Flight := ⟨"A", "D", "F3", 100, 150, 1, 1, 1⟩

/-- Expensive late connection A→D. -/
def cxF4 : Flight := ⟨"A", "D", "F4", 300, 400, 100, 100, 100⟩

/-- Graph on which the cheapest-fare search returns a non-optimal
itinerary. -/
def cxG1 : Graph := [("S", [cxF1, cxF2]), ("A", [cxF3, cxF4])]

/-- Cheap S→A leg arriving early at high price. -/
def lyF1 : Flight := ⟨"S", "A", "G1", 0, 10, 100, 100, 100⟩

/-- Cheaper S→A leg arriving very late. -/
def lyF2 : Flight := ⟨"S", "A", "G2", 0, 500, 1, 1, 1⟩

/-- A→B leg departing at 100, feasible only after the early arrival. -/
def lyF3 : Flight := ⟨"A", "B", "F", 100, 200, 1, 1, 1⟩

/-- Graph on which the cheapest-fare search returns an itinerary that
violates the minimum-layover rule. -/
def lyG : Graph := [("S", [lyF1, lyF2]), ("A", [lyF3])]

/-- A flight line whose prices include a negative value. -/
def negPriceLine : String := "AAA BBB F1 08:00 09:00 -5 10 10"

/-- A well-formed flight line. -/
def okLine : String := "AAA BBB F2 08:00 09:30 120 250 400"

/-! ## Helper lemmas: both searches on `start = dest` -/

/-- With `start = dest` the seed entry is popped first and the loop breaks
immediately, leaving the initial label state. -/
theorem earliestLoop_self (g : Graph) (s : String) (ed : Int) :
    earliestLoop g s s ed (fuelFor g) [(ed, s)] [(s, ed)] [] = some ([(s, ed)], []) := by
  show earliestLoop g s s ed (2 * totalFlights g + 2 + 1) _ _ _ = _
  unfold earliestLoop
  simp [popMin, findMin, removeFirst]

/-- `find_earliest_itinerary` on `start = dest` returns the zero-leg
itinerary. -/
theorem find_earliest_self (g : Graph) (s : String) (ed : Int) :
    find_earliest_itinerary g s s ed = some (some ⟨[]⟩) := by
  unfold find_earliest_itinerary
  rw [earliestLoop_self]
  simp [walkE, alookup]

/-- With `start = dest` the cheapest loop breaks on the seed pop. -/
theorem cheapestLoop_self (g : Graph) (s : String) (ed : Int) (cab : Cabin) :
    cheapestLoop g s s ed cab (fuelFor g) [(0, ed, s)] [(s, 0)] [(s, ed)] []
      = some ([(s, 0)], [(s, ed)], []) := by
  show cheapestLoop g s s ed cab (2 * totalFlights g + 2 + 1) _ _ _ _ = _
  unfold cheapestLoop
  simp [popMin, findMin, removeFirst]

/-- `find_cheapest_itinerary` on `start = dest` returns `None`: the break
happens before any relaxation, so `dest` is never recorded in `prev`. -/
theorem find_cheapest_self (g : Graph) (s : String) (ed : Int) (cab : Cabin) :
    find_cheapest_itinerary g s s ed cab = some none := by
  unfold find_cheapest_itinerary
  rw [cheapestLoop_self]
  simp [alookup]

/-! ## Loader validation (claim C7) -/

/-- Successful `parse_time` results are minutes in `[0, 1440)`. -/
theorem parse_time_bounds (s : String) (t : Int) (h : parse_time s = some t) :
    0 ≤ t ∧ t < 1440 := by
  unfold parse_time at h
  split at h
  case _ hs ms =>
    split at h
    case _ hv mv =>
      split at h
      case isTrue hb =>
        obtain ⟨h0, h24, m0, m60⟩ := hb
        injection h with h
        omega
      case isFalse => exact absurd h (by simp)
    repeat exact absurd h (by simp)
  exact absurd h (by simp)

/-- Claim C7, counterexample: `parse_flight_line_txt` accepts a line with
a negative economy price — price non-negativity is not validated. -/
theorem c7_negative_price_accepted :
    ∃ fl : Flight, parse_flight_line_txt negPriceLine = some (some fl) ∧ fl.economy < 0 :=
  ⟨⟨"AAA", "BBB", "F1", 480, 540, -5, 10, 10⟩, by decide, by decide⟩

/-- C7 (amended): every Flight produced by the txt line parser or the csv
row conversion has its departure and arrival instants in `[0, 1440)` with
arrival strictly after departure; the three prices are parsed as integers
but their sign is not checked. -/
theorem c7_loader_validates_times :
    (∀ (s : String) (fl : Flight), parse_flight_line_txt s = some (some fl) →
      0 ≤ fl.depart ∧ fl.depart < 1440 ∧ 0 ≤ fl.arrive ∧ fl.arrive < 1440 ∧
        fl.depart < fl.arrive) ∧
    (∀ (o d n dep arr e b f : String) (fl : Flight),
      csv_row_to_flight o d n dep arr e b f = some fl →
      0 ≤ fl.depart ∧ fl.depart < 1440 ∧ 0 ≤ fl.arrive ∧ fl.arrive < 1440 ∧
        fl.depart < fl.arrive) := by
  constructor
  · intro s fl h
    unfold parse_flight_line_txt at h
    split at h
    · exact absurd h (by simp)
    · split at h
      case _ o d num dep arr e b f =>
        split at h
        case _ depv arrv hdep harr =>
          split at h
          case isTrue => exact absurd h (by simp)
          case isFalse hord =>
            split at h
            case _ ei bi fi he hb hf =>
              injection h with h
              injection h with h
              subst h
              have hd := parse_time_bounds _ _ hdep
              have ha := parse_time_bounds _ _ harr
              simp only
              omega
            repeat exact absurd h (by simp)
        repeat exact absurd h (by simp)
      · exact absurd h (by simp)
  · intro o d n dep arr e b f fl h
    unfold csv_row_to_flight at h
    split at h
    case _ depv arrv hdep harr =>
      split at h
      case isTrue => exact absurd h (by simp)
      case isFalse hord =>
        split at h
        case _ ei bi fi he hb hf =>
          injection h with h
          subst h
          have hd := parse_time_bounds _ _ hdep
          have ha := parse_time_bounds _ _ harr
          simp only
          omega
        repeat exact absurd h (by simp)
    repeat exact absurd h (by simp)

/-- C7 witness: the time-validation theorem applied to a concrete
well-formed line. -/
theorem c7_loader_validates_times_witness :
    0 ≤ (480 : Int) ∧ (480 : Int) < 1440 ∧ 0 ≤ (570 : Int) ∧ (570 : Int) < 1440 ∧
      (480 : Int) < 570 := by
  have h := c7_loader_validates_times.1 okLine
    ⟨"AAA", "BBB", "F2", 480, 570, 120, 250, 400⟩ (by decide)
  exact h

/-! ## Claims C1 and C2: concrete defects of the cheapest-fare search -/

/-- Claim C1, failing input: on `cxG1` the cheapest-economy search returns
the itinerary `[cxF1, cxF4]` with total price 110 although the feasible
alternative `[cxF2, cxF3]` costs 51 — keeping a single (cost, time) label
per location discards the expensive-but-early arrival that the cheap
connection needs. -/
theorem c1_cheapest_not_optimal :
    ∃ it : Itinerary,
      find_cheapest_itinerary cxG1 "S" "D" 0 .economy = some (some it) ∧
      it.total_price .economy = 110 ∧
      FeasiblePath cxG1 0 "S" "D" [cxF2, cxF3] ∧
      pathCost .economy [cxF2, cxF3] < it.total_price .economy :=
  ⟨⟨[cxF1, cxF4]⟩, by decide, by decide, by decide, by decide⟩

/-- Claim C2, failing input: on `lyG` the cheapest-economy search returns
`[lyF2, lyF3]` although `lyF3` departs 400 minutes before `lyF2`'s
arrival plus the 60-minute layover: a stale queue entry carrying the
superseded early arrival relaxes the connection, while the recorded
predecessor is the cheaper late flight. -/
theorem c2_cheapest_breaks_layover :
    ∃ it : Itinerary,
      find_cheapest_itinerary lyG "S" "B" 0 .economy = some (some it) ∧
      it.flights = [lyF2, lyF3] ∧
      ¬ List.Chain' (fun a b => a.arrive + MIN_LAYOVER_MINUTES ≤ b.depart) it.flights :=
  ⟨⟨[lyF2, lyF3]⟩, by decide, by decide, by
    simp [List.chain'_cons, lyF2, lyF3, MIN_LAYOVER_MINUTES]⟩

/-- C8: for every graph and earliest departure, the earliest-arrival
search called with start equal to dest returns the zero-leg itinerary
(empty flight list, zero stops, zero total price in every cabin), not
`None`. -/
theorem c8_earliest_self_zero_leg (g : Graph) (s : String) (ed : Int) :
    ∃ it : Itinerary, find_earliest_itinerary g s s ed = some (some it) ∧
      it.flights = [] ∧ it.num_stops = 0 ∧ ∀ c : Cabin, it.total_price c = 0 :=
  ⟨⟨[]⟩, find_earliest_self g s ed, rfl, by decide, fun c => by cases c <;> decide⟩

/-- C9: for every graph, earliest departure and cabin, the cheapest-fare
search called with start equal to dest returns `None`, while the
earliest-arrival search returns an empty itinerary on the same input. -/
theorem c9_cheapest_self_none (g : Graph) (s : String) (ed : Int) (cab : Cabin) :
    find_cheapest_itinerary g s s ed cab = some none ∧
      ∃ it : Itinerary, find_earliest_itinerary g s s ed = some (some it) ∧ it.flights = [] :=
  ⟨find_cheapest_self g s ed cab, ⟨[]⟩, find_earliest_self g s ed, rfl⟩

/-! ## Generic lemmas: association lists, minimum extraction, folds -/

theorem alookup_cons {α : Type} (k : String) (v : α) (m : List (String × α)) (key : String) :
    alookup ((k, v) :: m) key = if key = k then some v else alookup m key := rfl

theorem alookup_cons_self {α : Type} (k : String) (v : α) (m : List (String × α)) :
    alookup ((k, v) :: m) k = some v := by simp [alookup]

theorem alookup_cons_ne {α : Type} {k key : String} (v : α) (m : List (String × α))
    (h : key ≠ k) : alookup ((k, v) :: m) key = alookup m key := by simp [alookup, h]

/-- A key bound in an association list names a member entry. -/
theorem alookup_mem {α : Type} : ∀ (m : List (String × α)) (key : String) (v : α),
    alookup m key = some v → (key, v) ∈ m
  | [], _, _, h => by simp [alookup] at h
  | (k, w) :: rest, key, v, h => by
      rw [alookup_cons] at h
      by_cases hk : key = k
      · subst hk
        simp at h
        subst h
        exact List.mem_cons_self _ _
      · simp [hk] at h
        exact List.mem_cons_of_mem _ (alookup_mem rest key v h)

/-- Preservation of a predicate along a left fold. -/
theorem foldlPreserve {σ β : Type} (f : σ → β → σ) (P : σ → Prop) :
    ∀ (l : List β) (s : σ), (∀ t b, b ∈ l → P t → P (f t b)) → P s → P (l.foldl f s)
  | [], _, _, hs => hs
  | b :: l, s, h, hs =>
      foldlPreserve f P l (f s b) (fun t c hc ht => h t c (List.mem_cons_of_mem _ hc) ht)
        (h s b (List.mem_cons_self _ _) hs)

theorem findMin_mem {α : Type} (lt : α → α → Bool) :
    ∀ (l : List α) (m : α), findMin lt l = some m → m ∈ l
  | [], m, h => by simp [findMin] at h
  | x :: xs, m, h => by
      unfold findMin at h
      cases hxs : findMin lt xs with
      | none => rw [hxs] at h; injection h with h; subst h; exact List.mem_cons_self _ _
      | some m' =>
          rw [hxs] at h
          by_cases hlt : lt m' x
          · simp [hlt] at h
            subst h
            exact List.mem_cons_of_mem _ (findMin_mem lt xs m' hxs)
          · simp [hlt] at h
            subst h
            exact List.mem_cons_self _ _

/-- `findMin` on a non-empty list always finds an element. -/
theorem findMin_cons_ne_none {α : Type} (lt : α → α → Bool) (x : α) (xs : List α) :
    findMin lt (x :: xs) ≠ none := by
  unfold findMin
  cases h : findMin lt xs with
  | none => simp
  | some m => by_cases hlt : lt m x <;> simp [hlt]

/-- The extracted minimum is minimal for any integer key that the strict
comparison refines. -/
theorem findMin_key_le {α : Type} (lt : α → α → Bool) (k : α → Int)
    (H1 : ∀ a b, lt a b = true → k a ≤ k b) (H2 : ∀ a b, k a < k b → lt a b = true) :
    ∀ (l : List α) (m : α), findMin lt l = some m → ∀ e ∈ l, k m ≤ k e
  | [], m, h => by simp [findMin] at h
  | x :: xs, m, h => by
      unfold findMin at h
      cases hxs : findMin lt xs with
      | none =>
          rw [hxs] at h
          injection h with h
          subst h
          intro e he
          rcases List.mem_cons.mp he with rfl | he
          · exact le_refl _
          · cases xs with
            | nil => simp at he
            | cons y ys => exact absurd hxs (findMin_cons_ne_none lt y ys)
      | some m' =>
          rw [hxs] at h
          by_cases hlt : lt m' x
          · simp [hlt] at h
            subst h
            intro e he
            rcases List.mem_cons.mp he with rfl | he
            · exact H1 _ _ hlt
            · exact findMin_key_le lt k H1 H2 xs m' hxs e he
          · simp [hlt] at h
            subst h
            intro e he
            rcases List.mem_cons.mp he with rfl | he
            · exact le_refl _
            · have hm' := findMin_key_le lt k H1 H2 xs m' hxs e he
              have hx : ¬ k m' < k x := fun hk => hlt (H2 _ _ hk)
              omega

theorem removeFirst_subset {α : Type} [DecidableEq α] :
    ∀ (l : List α) (y e : α), e ∈ removeFirst l y → e ∈ l
  | [], _, _, h => by simp [removeFirst] at h
  | x :: xs, y, e, h => by
      unfold removeFirst at h
      by_cases hx : x = y
      · simp [hx] at h
        exact List.mem_cons_of_mem _ h
      · simp [hx] at h
        rcases h with rfl | h
        · exact List.mem_cons_self _ _
        · exact List.mem_cons_of_mem _ (removeFirst_subset xs y e h)

theorem removeFirst_mem_of_ne {α : Type} [DecidableEq α] :
    ∀ (l : List α) (y e : α), e ∈ l → e ≠ y → e ∈ removeFirst l y
  | [], _, _, h, _ => by simp at h
  | x :: xs, y, e, h, hne => by
      unfold removeFirst
      by_cases hx : x = y
      · simp [hx]
        rcases List.mem_cons.mp h with rfl | h
        · exact absurd hx hne
        · exact h
      · simp [hx]
        rcases List.mem_cons.mp h with rfl | h
        · exact Or.inl rfl
        · exact Or.inr (removeFirst_mem_of_ne xs y e h hne)

theorem removeFirst_length {α : Type} [DecidableEq α] :
    ∀ (l : List α) (y : α), y ∈ l → (removeFirst l y).length + 1 = l.length
  | [], _, h => by simp at h
  | x :: xs, y, h => by
      unfold removeFirst
      by_cases hx : x = y
      · simp [hx]
      · simp [hx]
        rcases List.mem_cons.mp h with rfl | h
        · exact absurd rfl hx
        · exact removeFirst_length xs y h

theorem popMin_findMin {α : Type} [DecidableEq α] (lt : α → α → Bool) {l rest : List α}
    {m : α} (h : popMin lt l = some (m, rest)) :
    findMin lt l = some m ∧ rest = removeFirst l m := by
  unfold popMin at h
  cases hf : findMin lt l with
  | none => rw [hf] at h; exact absurd h (by simp)
  | some m' =>
      rw [hf] at h
      simp only [Option.some.injEq, Prod.mk.injEq] at h
      obtain ⟨h1, h2⟩ := h
      subst h1
      exact ⟨rfl, h2.symm⟩

theorem popMin_mem {α : Type} [DecidableEq α] (lt : α → α → Bool) {l rest : List α} {m : α}
    (h : popMin lt l = some (m, rest)) : m ∈ l :=
  findMin_mem lt l m (popMin_findMin lt h).1

theorem popMin_rest {α : Type} [DecidableEq α] (lt : α → α → Bool) {l rest : List α} {m : α}
    (h : popMin lt l = some (m, rest)) : rest = removeFirst l m :=
  (popMin_findMin lt h).2

theorem popMin_none {α : Type} [DecidableEq α] (lt : α → α → Bool) {l : List α}
    (h : popMin lt l = none) : l = [] := by
  cases l with
  | nil => rfl
  | cons x xs =>
      unfold popMin at h
      cases hf : findMin lt (x :: xs) with
      | none =>
          unfold findMin at hf
          cases h2 : findMin lt xs with
          | none => rw [h2] at hf; exact absurd hf (by simp)
          | some m => rw [h2] at hf; by_cases hlt : lt m x <;> simp [hlt] at hf
      | some m => rw [hf] at h; exact absurd h (by simp)

/-- The time component of a popped earliest-queue entry bounds every
remaining entry's time from below. -/
theorem popMinE_min {l rest : List (Int × String)} {m : Int × String}
    (h : popMin qltE l = some (m, rest)) : ∀ e ∈ l, m.1 ≤ e.1 := by
  refine findMin_key_le qltE Prod.fst ?_ ?_ l m (popMin_findMin qltE h).1
  · intro a b hab
    simp [qltE] at hab
    rcases hab with hab | hab
    · omega
    · omega
  · intro a b hab
    simp [qltE]
    omega

/-- The cost component of a popped cheapest-queue entry bounds every
remaining entry's cost from below. -/
theorem popMinC_min {l rest : List (Int × Int × String)} {m : Int × Int × String}
    (h : popMin qltC l = some (m, rest)) : ∀ e ∈ l, m.1 ≤ e.1 := by
  refine findMin_key_le qltC Prod.fst ?_ ?_ l m (popMin_findMin qltC h).1
  · intro a b hab
    simp [qltC] at hab
    rcases hab with hab | hab
    · omega
    · omega
  · intro a b hab
    simp [qltC]
    omega

/-! ## Chain invariant of the predecessor maps (claim C4) -/

/-- Every recorded predecessor flight's destination is the key under which
it is recorded. -/
def PrevDest (prev : PMap) : Prop :=
  ∀ a fl, alookup prev a = some fl → fl.dest = a

theorem prevDest_insert {prev : PMap} (fl : Flight) (h : PrevDest prev) :
    PrevDest ((fl.dest, fl) :: prev) := by
  intro a fl2 ha
  rw [alookup_cons] at ha
  by_cases hd : a = fl.dest
  · simp [hd] at ha
    subst ha
    exact hd.symm
  · simp [hd] at ha
    exact h a fl2 ha

theorem relaxE_prevDest (start : String) (ed : Int) (airport : String) (time : Int)
    (st : PQ1 × IMap × PMap) (fl : Flight) (h : PrevDest st.2.2) :
    PrevDest (relaxE start ed airport time st fl).2.2 := by
  unfold relaxE
  by_cases h1 : fl.depart < (if airport = start then ed else time + MIN_LAYOVER_MINUTES)
  · rw [if_pos h1]
    exact h
  · rw [if_neg h1]
    by_cases h2 : improves st.2.1 fl.dest fl.arrive = true
    · rw [if_pos h2]
      exact prevDest_insert fl h
    · rw [if_neg h2]
      exact h

theorem relaxC_prevDest (start : String) (ed : Int) (cabin : Cabin) (airport : String)
    (cost time : Int) (st : PQ2 × IMap × IMap × PMap) (fl : Flight) (h : PrevDest st.2.2.2) :
    PrevDest (relaxC start ed cabin airport cost time st fl).2.2.2 := by
  unfold relaxC
  by_cases h1 : fl.depart < (if airport = start then ed else time + MIN_LAYOVER_MINUTES)
  · rw [if_pos h1]
    exact h
  · rw [if_neg h1]
    by_cases h2 : improves st.2.1 fl.dest (cost + fl.price_for cabin) = true
    · rw [if_pos h2]
      exact prevDest_insert fl h
    · rw [if_neg h2]
      exact h

theorem earliestLoop_prevDest (g : Graph) (start dest : String) (ed : Int) :
    ∀ (fuel : Nat) (pq : PQ1) (bt : IMap) (prev : PMap), PrevDest prev →
      ∀ bt2 prev2, earliestLoop g start dest ed fuel pq bt prev = some (bt2, prev2) →
        PrevDest prev2
  | 0, pq, bt, prev, hp, bt2, prev2, h => by simp [earliestLoop] at h
  | fuel + 1, pq, bt, prev, hp, bt2, prev2, h => by
      unfold earliestLoop at h
      cases hpop : popMin qltE pq with
      | none =>
          rw [hpop] at h
          injection h with h
          injection h with h1 h2
          subst h2
          exact hp
      | some p =>
          obtain ⟨⟨time, airport⟩, pq1⟩ := p
          rw [hpop] at h
          by_cases hd : airport = dest
          · simp only [hd, if_pos rfl] at h
            injection h with h
            injection h with h1 h2
            subst h2
            exact hp
          · simp only [if_neg hd] at h
            refine earliestLoop_prevDest g start dest ed fuel _ _ _ ?_ _ _ h
            exact foldlPreserve (relaxE start ed airport time) (fun st => PrevDest st.2.2)
              (getFlights g airport) (pq1, bt, prev)
              (fun t b _ ht => relaxE_prevDest start ed airport time t b ht) hp

theorem cheapestLoop_prevDest (g : Graph) (start dest : String) (ed : Int) (cab : Cabin) :
    ∀ (fuel : Nat) (pq : PQ2) (bc bt : IMap) (prev : PMap), PrevDest prev →
      ∀ bc2 bt2 prev2,
        cheapestLoop g start dest ed cab fuel pq bc bt prev = some (bc2, bt2, prev2) →
        PrevDest prev2
  | 0, pq, bc, bt, prev, hp, bc2, bt2, prev2, h => by simp [cheapestLoop] at h
  | fuel + 1, pq, bc, bt, prev, hp, bc2, bt2, prev2, h => by
      unfold cheapestLoop at h
      cases hpop : popMin qltC pq with
      | none =>
          rw [hpop] at h
          injection h with h
          injection h with h1 h2
          injection h2 with h2 h3
          subst h3
          exact hp
      | some p =>
          obtain ⟨⟨cost, time, airport⟩, pq1⟩ := p
          rw [hpop] at h
          by_cases hd : airport = dest
          · simp only [hd, if_pos rfl] at h
            injection h with h
            injection h with h1 h2
            injection h2 with h2 h3
            subst h3
            exact hp
          · simp only [if_neg hd] at h
            refine cheapestLoop_prevDest g start dest ed cab fuel _ _ _ _ ?_ _ _ _ h
            exact foldlPreserve (relaxC start ed cab airport cost time)
              (fun st => PrevDest st.2.2.2) (getFlights g airport) (pq1, bc, bt, prev)
              (fun t b _ ht => relaxC_prevDest start ed cab airport cost time t b ht) hp

/-- Structure of a successful earliest-search backward walk, in collection
(backward) order. -/
theorem walkE_ok : ∀ (fuel : Nat) (prev : PMap) (start cur : String) (fs : List Flight),
    walkE fuel prev start cur = some (some fs) → PrevDest prev →
    (fs = [] → cur = start) ∧
    (∀ f, fs.head? = some f → f.dest = cur) ∧
    (∀ f, fs.getLast? = some f → f.origin = start) ∧
    List.Chain' (fun a b => a.origin = b.dest) fs
  | 0, prev, start, cur, fs, h, hp => by simp [walkE] at h
  | fuel + 1, prev, start, cur, fs, h, hp => by
      unfold walkE at h
      by_cases hc : cur = start
      · simp [hc] at h
        subst h
        subst hc
        exact ⟨fun _ => rfl, by simp, by simp, by simp⟩
      · rw [if_neg hc] at h
        split at h
        · exact absurd h (by simp)
        next fl hl =>
          cases hw : walkE fuel prev start fl.origin with
          | none => rw [hw] at h; exact absurd h (by simp)
          | some o =>
              cases o with
              | none => rw [hw] at h; exact absurd h (by simp)
              | some fs' =>
                  rw [hw] at h
                  simp at h
                  subst h
                  obtain ⟨h1, h2, h3, h4⟩ := walkE_ok fuel prev start fl.origin fs' hw hp
                  refine ⟨by simp, ?_, ?_, ?_⟩
                  · intro f hf
                    simp at hf
                    subst hf
                    exact hp cur fl hl
                  · intro f hf
                    cases fs' with
                    | nil =>
                        simp at hf
                        subst hf
                        exact h1 rfl
                    | cons x xs =>
                        rw [List.getLast?_cons_cons] at hf
                        exact h3 f hf
                  · rw [List.chain'_cons']
                    refine ⟨?_, h4⟩
                    intro y hy
                    exact (h2 y hy).symm

/-- Structure of a successful cheapest-search backward walk. -/
theorem walkC_ok : ∀ (fuel : Nat) (prev : PMap) (start cur : String) (fs : List Flight),
    walkC fuel prev start cur = .ok fs → PrevDest prev →
    (fs = [] → cur = start) ∧
    (∀ f, fs.head? = some f → f.dest = cur) ∧
    (∀ f, fs.getLast? = some f → f.origin = start) ∧
    List.Chain' (fun a b => a.origin = b.dest) fs
  | 0, prev, start, cur, fs, h, hp => by simp [walkC] at h
  | fuel + 1, prev, start, cur, fs, h, hp => by
      unfold walkC at h
      by_cases hc : cur = start
      · simp [hc] at h
        subst h
        subst hc
        exact ⟨fun _ => rfl, by simp, by simp, by simp⟩
      · rw [if_neg hc] at h
        split at h
        · exact absurd h (by simp)
        next fl hl =>
          cases hw : walkC fuel prev start fl.origin with
          | fuelOut => rw [hw] at h; exact absurd h (by simp)
          | keyMissing => rw [hw] at h; exact absurd h (by simp)
          | ok fs' =>
              rw [hw] at h
              simp at h
              subst h
              obtain ⟨h1, h2, h3, h4⟩ := walkC_ok fuel prev start fl.origin fs' hw hp
              refine ⟨by simp, ?_, ?_, ?_⟩
              · intro f hf
                simp at hf
                subst hf
                exact hp cur fl hl
              · intro f hf
                cases fs' with
                | nil =>
                    simp at hf
                    subst hf
                    exact h1 rfl
                | cons x xs =>
                    rw [List.getLast?_cons_cons] at hf
                    exact h3 f hf
              · rw [List.chain'_cons']
                refine ⟨?_, h4⟩
                intro y hy
                exact (h2 y hy).symm

/-- Transport of the backward-walk structure to the reversed (returned)
flight list. -/
theorem walk_reverse_props {fs : List Flight} {start cur : String}
    (h1 : fs = [] → cur = start)
    (h2 : ∀ f, fs.head? = some f → f.dest = cur)
    (h3 : ∀ f, fs.getLast? = some f → f.origin = start)
    (h4 : List.Chain' (fun a b => a.origin = b.dest) fs) :
    List.Chain' (fun a b => a.dest = b.origin) fs.reverse ∧
    (∀ f, fs.reverse.head? = some f → f.origin = start) ∧
    (∀ f, fs.reverse.getLast? = some f → f.dest = cur) ∧
    (fs.reverse = [] → start = cur) := by
  refine ⟨?_, ?_, ?_, ?_⟩
  · rw [List.chain'_reverse]
    exact List.Chain'.imp (fun a b hab => hab.symm) h4
  · intro f hf
    rw [List.head?_reverse] at hf
    exact h3 f hf
  · intro f hf
    rw [List.getLast?_reverse] at hf
    exact h2 f hf
  · intro hf
    rw [List.reverse_eq_nil_iff] at hf
    exact (h1 hf).symm

/-- C4: every itinerary returned by either search chains (each record's
destination is the next record's origin), starts at the start argument and
ends at the destination argument; an empty returned flight list can only
happen when start equals dest. -/
theorem c4_chain_invariant (g : Graph) (start dest : String) (ed : Int) (cab : Cabin) :
    (∀ it : Itinerary, find_earliest_itinerary g start dest ed = some (some it) →
      List.Chain' (fun a b => a.dest = b.origin) it.flights ∧
      (∀ f, it.flights.head? = some f → f.origin = start) ∧
      (∀ f, it.flights.getLast? = some f → f.dest = dest) ∧
      (it.flights = [] → start = dest)) ∧
    (∀ it : Itinerary, find_cheapest_itinerary g start dest ed cab = some (some it) →
      List.Chain' (fun a b => a.dest = b.origin) it.flights ∧
      (∀ f, it.flights.head? = some f → f.origin = start) ∧
      (∀ f, it.flights.getLast? = some f → f.dest = dest) ∧
      (it.flights = [] → start = dest)) := by
  constructor
  · intro it h
    unfold find_earliest_itinerary at h
    split at h
    · exact absurd h (by simp)
    next bt prev hL =>
      have hp : PrevDest prev :=
        earliestLoop_prevDest g start dest ed _ _ _ _
          (fun a fl hfl => by simp [alookup] at hfl) _ _ hL
      split at h
      · exact absurd h (by simp)
      · split at h
        · exact absurd h (by simp)
        · exact absurd h (by simp)
        next fs hw =>
          simp at h
          subst h
          obtain ⟨h1, h2, h3, h4⟩ := walkE_ok _ _ _ _ _ hw hp
          exact walk_reverse_props h1 h2 h3 h4
  · intro it h
    unfold find_cheapest_itinerary at h
    split at h
    · exact absurd h (by simp)
    next bc bt prev hL =>
      have hp : PrevDest prev :=
        cheapestLoop_prevDest g start dest ed cab _ _ _ _ _
          (fun a fl hfl => by simp [alookup] at hfl) _ _ _ hL
      split at h
      · exact absurd h (by simp)
      · split at h
        · exact absurd h (by simp)
        · exact absurd h (by simp)
        next fs hw =>
          simp at h
          subst h
          obtain ⟨h1, h2, h3, h4⟩ := walkC_ok _ _ _ _ _ hw hp
          exact walk_reverse_props h1 h2 h3 h4

/-- C4 witness: the chain properties instantiated on a concrete returned
itinerary. -/
theorem c4_chain_invariant_witness :
    List.Chain' (fun a b => a.dest = b.origin) (Itinerary.mk [cxF2, cxF3]).flights ∧
    (∀ f, (Itinerary.mk [cxF2, cxF3]).flights.head? = some f → f.origin = "S") ∧
    (∀ f, (Itinerary.mk [cxF2, cxF3]).flights.getLast? = some f → f.dest = "D") ∧
    ((Itinerary.mk [cxF2, cxF3]).flights = [] → "S" = "D") :=
  (c4_chain_invariant cxG1 "S" "D" 0 .economy).1 ⟨[cxF2, cxF3]⟩ (by decide)

/-! ## Termination of the earliest-arrival loop -/

/-- All flight occurrences of the graph's adjacency lists. -/
def allFlights (g : Graph) : List Flight :=
  (g.map Prod.snd).flatten

theorem totalFlights_eq (g : Graph) : totalFlights g = (allFlights g).length := by
  unfold totalFlights allFlights
  rw [List.length_flatten]
  simp [Function.comp_def]

theorem getFlights_subset (g : Graph) (a : String) :
    ∀ fl ∈ getFlights g a, fl ∈ allFlights g := by
  intro fl hfl
  unfold getFlights at hfl
  cases hg : alookup g a with
  | none => rw [hg] at hfl; simp at hfl
  | some l =>
      rw [hg] at hfl
      simp at hfl
      have : l ∈ g.map Prod.snd :=
        List.mem_map.mpr ⟨(a, l), alookup_mem g a l hg, rfl⟩
      exact List.mem_flatten.mpr ⟨l, this, hfl⟩

theorem countP_le_of_mono {α : Type} (p q : α → Bool) :
    ∀ l : List α, (∀ x ∈ l, q x = true → p x = true) → l.countP q ≤ l.countP p
  | [], _ => le_refl _
  | a :: l, hmono => by
      rw [List.countP_cons, List.countP_cons]
      have IH := countP_le_of_mono p q l (fun x hx => hmono x (List.mem_cons_of_mem _ hx))
      by_cases hqa : q a = true
      · simp [hqa, hmono a (List.mem_cons_self _ _) hqa]
        omega
      · simp at hqa
        simp [hqa]
        omega

theorem countP_lt_of_mono {α : Type} (p q : α → Bool) :
    ∀ l : List α, (∀ x ∈ l, q x = true → p x = true) →
      ∀ x0 ∈ l, p x0 = true → q x0 = false → l.countP q < l.countP p
  | [], _, x0, hx0, _, _ => by simp at hx0
  | a :: l, hmono, x0, hx0, hp, hq => by
      rw [List.countP_cons, List.countP_cons]
      rcases List.mem_cons.mp hx0 with rfl | hx0
      · have hle := countP_le_of_mono p q l (fun x hx => hmono x (List.mem_cons_of_mem _ hx))
        simp [hp, hq]
        omega
      · have IH := countP_lt_of_mono p q l
          (fun x hx => hmono x (List.mem_cons_of_mem _ hx)) x0 hx0 hp hq
        have : (if q a = true then 1 else 0) ≤ (if p a = true then 1 else 0) := by
          by_cases hqa : q a = true
          · simp [hqa, hmono a (List.mem_cons_self _ _) hqa]
          · simp [hqa]
        omega

/-- Potential of the earliest search: flights that could still trigger a
push (their arrival would strictly improve the recorded best time of
their destination). -/
def phiE (g : Graph) (bt : IMap) : Nat :=
  (allFlights g).countP (fun f => improves bt f.dest f.arrive)

/-- Inserting an improving binding only shrinks the set of improving
pairs. -/
theorem improves_insert_mono {bt : IMap} {d : String} {x : Int}
    (hdx : improves bt d x = true) (d' : String) (x' : Int)
    (h : improves ((d, x) :: bt) d' x' = true) : improves bt d' x' = true := by
  unfold improves at h ⊢
  by_cases hd : d' = d
  · subst hd
    rw [alookup_cons_self] at h
    cases hl : alookup bt d' with
    | none => rfl
    | some b =>
        unfold improves at hdx
        rw [hl] at hdx
        simp at h hdx ⊢
        omega
  · rwa [alookup_cons_ne _ _ hd] at h

/-- The inserted binding itself is no longer improving. -/
theorem improves_insert_self (bt : IMap) (d : String) (x : Int) :
    improves ((d, x) :: bt) d x = false := by
  unfold improves
  rw [alookup_cons_self]
  simp

/-- One earliest-search relaxation does not increase the combined measure
`2 * phi + queue length`. -/
theorem relaxE_measure (g : Graph) (start : String) (ed : Int) (airport : String)
    (time : Int) (st : PQ1 × IMap × PMap) (fl : Flight) (hfl : fl ∈ allFlights g) :
    2 * phiE g (relaxE start ed airport time st fl).2.1 +
      (relaxE start ed airport time st fl).1.length ≤
    2 * phiE g st.2.1 + st.1.length := by
  unfold relaxE
  by_cases h1 : fl.depart < (if airport = start then ed else time + MIN_LAYOVER_MINUTES)
  · rw [if_pos h1]
  · rw [if_neg h1]
    by_cases h2 : improves st.2.1 fl.dest fl.arrive = true
    · rw [if_pos h2]
      have hlt : phiE g ((fl.dest, fl.arrive) :: st.2.1) < phiE g st.2.1 := by
        refine countP_lt_of_mono _ _ (allFlights g) ?_ fl hfl h2 ?_
        · intro x hx hqx
          exact improves_insert_mono h2 x.dest x.arrive hqx
        · exact improves_insert_self st.2.1 fl.dest fl.arrive
      simp only [List.length_append, List.length_cons, List.length_nil]
      omega
    · rw [if_neg h2]

theorem foldl_relaxE_measure (g : Graph) (start : String) (ed : Int) (airport : String)
    (time : Int) :
    ∀ (l : List Flight) (st : PQ1 × IMap × PMap), (∀ fl ∈ l, fl ∈ allFlights g) →
      2 * phiE g (l.foldl (relaxE start ed airport time) st).2.1 +
        (l.foldl (relaxE start ed airport time) st).1.length ≤
      2 * phiE g st.2.1 + st.1.length
  | [], st, _ => le_refl _
  | fl :: l, st, hl => by
      have h1 := relaxE_measure g start ed airport time st fl (hl fl (List.mem_cons_self _ _))
      have h2 := foldl_relaxE_measure g start ed airport time l
        (relaxE start ed airport time st fl)
        (fun x hx => hl x (List.mem_cons_of_mem _ hx))
      simp only [List.foldl_cons]
      omega

/-- Fuel beyond the measure guarantees the earliest loop terminates
normally. -/
theorem earliestLoop_terminates (g : Graph) (start dest : String) (ed : Int) :
    ∀ (fuel : Nat) (pq : PQ1) (bt : IMap) (prev : PMap),
      2 * phiE g bt + pq.length < fuel →
      earliestLoop g start dest ed fuel pq bt prev ≠ none
  | 0, pq, bt, prev, hf => by omega
  | fuel + 1, pq, bt, prev, hf => by
      unfold earliestLoop
      cases hpop : popMin qltE pq with
      | none => simp
      | some p =>
          obtain ⟨⟨time, airport⟩, pq1⟩ := p
          by_cases hd : airport = dest
          · simp [hd]
          · simp only [if_neg hd]
            have hmem := popMin_mem qltE hpop
            have hlen : pq1.length + 1 = pq.length := by
              rw [popMin_rest qltE hpop]
              exact removeFirst_length pq (time, airport) hmem
            have hfold : 2 * phiE g
                ((getFlights g airport).foldl (relaxE start ed airport time)
                  (pq1, bt, prev)).2.1 +
                ((getFlights g airport).foldl (relaxE start ed airport time)
                  (pq1, bt, prev)).1.length ≤ 2 * phiE g bt + pq1.length := by
              simpa using foldl_relaxE_measure g start ed airport time (getFlights g airport)
                (pq1, bt, prev) (fun fl hfl => getFlights_subset g airport fl hfl)
            exact earliestLoop_terminates g start dest ed fuel _ _ _ (by omega)

/-- `phiE` is bounded by the flight count. -/
theorem phiE_le (g : Graph) (bt : IMap) : phiE g bt ≤ totalFlights g := by
  rw [totalFlights_eq]
  exact List.countP_le_length _

/-- The earliest-search loop, run with the fuel used by
`find_earliest_itinerary`, always returns a final state. -/
theorem earliestLoop_top_terminates (g : Graph) (start dest : String) (ed : Int) :
    earliestLoop g start dest ed (fuelFor g) [(ed, start)] [(start, ed)] [] ≠ none := by
  refine earliestLoop_terminates g start dest ed _ _ _ _ ?_
  have := phiE_le g [(start, ed)]
  unfold fuelFor
  simp only [List.length_cons, List.length_nil]
  omega

/-! ## Termination of the cheapest-fare loop (non-negative prices) -/

theorem improves_antitone {m : IMap} {d : String} {x x' : Int}
    (h : improves m d x = true) (hx : x' ≤ x) : improves m d x' = true := by
  unfold improves at h ⊢
  cases hl : alookup m d with
  | none => rfl
  | some b =>
      rw [hl] at h
      simp at h ⊢
      omega

/-- Potential of one cheapest-loop iteration, relative to a fixed cost
lower bound `c`: flights whose relaxation from any entry of cost at least
`c` could still improve their destination's best cost. -/
def phiC2 (g : Graph) (cabin : Cabin) (c : Int) (bc : IMap) : Nat :=
  (allFlights g).countP (fun f => improves bc f.dest (c + f.price_for cabin))

/-- Loop-level potential: `phiC2` at the queue's current minimum cost. -/
def phiCQ (g : Graph) (cabin : Cabin) (bc : IMap) (pq : PQ2) : Nat :=
  match findMin qltC pq with
  | none => 0
  | some m => phiC2 g cabin m.1 bc

theorem relaxC_measure (g : Graph) (start : String) (ed : Int) (cabin : Cabin)
    (airport : String) (cost time : Int) (st : PQ2 × IMap × IMap × PMap) (fl : Flight)
    (hfl : fl ∈ allFlights g) :
    2 * phiC2 g cabin cost (relaxC start ed cabin airport cost time st fl).2.1 +
      (relaxC start ed cabin airport cost time st fl).1.length ≤
    2 * phiC2 g cabin cost st.2.1 + st.1.length := by
  unfold relaxC
  by_cases h1 : fl.depart < (if airport = start then ed else time + MIN_LAYOVER_MINUTES)
  · rw [if_pos h1]
  · rw [if_neg h1]
    by_cases h2 : improves st.2.1 fl.dest (cost + fl.price_for cabin) = true
    · rw [if_pos h2]
      have hlt : phiC2 g cabin cost ((fl.dest, cost + fl.price_for cabin) :: st.2.1) <
          phiC2 g cabin cost st.2.1 := by
        refine countP_lt_of_mono _ _ (allFlights g) ?_ fl hfl h2 ?_
        · intro x hx hqx
          exact improves_insert_mono h2 x.dest (cost + x.price_for cabin) hqx
        · exact improves_insert_self st.2.1 fl.dest (cost + fl.price_for cabin)
      simp only [List.length_append, List.length_cons, List.length_nil]
      omega
    · rw [if_neg h2]

theorem foldl_relaxC_measure (g : Graph) (start : String) (ed : Int) (cabin : Cabin)
    (airport : String) (cost time : Int) :
    ∀ (l : List Flight) (st : PQ2 × IMap × IMap × PMap), (∀ fl ∈ l, fl ∈ allFlights g) →
      2 * phiC2 g cabin cost (l.foldl (relaxC start ed cabin airport cost time) st).2.1 +
        (l.foldl (relaxC start ed cabin airport cost time) st).1.length ≤
      2 * phiC2 g cabin cost st.2.1 + st.1.length
  | [], st, _ => le_refl _
  | fl :: l, st, hl => by
      have h1 := relaxC_measure g start ed cabin airport cost time st fl
        (hl fl (List.mem_cons_self _ _))
      have h2 := foldl_relaxC_measure g start ed cabin airport cost time l
        (relaxC start ed cabin airport cost time st fl)
        (fun x hx => hl x (List.mem_cons_of_mem _ hx))
      simp only [List.foldl_cons]
      omega

/-- Relaxation only appends queue entries whose cost component is at least
the popped cost, hence at least any lower bound of it. -/
theorem relaxC_entries_lb (start : String) (ed : Int) (cabin : Cabin) (airport : String)
    (cost time : Int) (st : PQ2 × IMap × IMap × PMap) (fl : Flight) (L : Int)
    (hst : ∀ e ∈ st.1, L ≤ e.1) (hc : L ≤ cost) (hp : 0 ≤ fl.price_for cabin) :
    ∀ e ∈ (relaxC start ed cabin airport cost time st fl).1, L ≤ e.1 := by
  unfold relaxC
  by_cases h1 : fl.depart < (if airport = start then ed else time + MIN_LAYOVER_MINUTES)
  · rw [if_pos h1]
    exact hst
  · rw [if_neg h1]
    by_cases h2 : improves st.2.1 fl.dest (cost + fl.price_for cabin) = true
    · rw [if_pos h2]
      intro e he
      simp only [List.mem_append, List.mem_singleton] at he
      rcases he with he | he
      · exact hst e he
      · subst he
        simp only
        omega
    · rw [if_neg h2]
      exact hst

theorem foldl_relaxC_entries_lb (start : String) (ed : Int) (cabin : Cabin)
    (airport : String) (cost time : Int) (l : List Flight)
    (st : PQ2 × IMap × IMap × PMap) (L : Int)
    (hl : ∀ fl ∈ l, 0 ≤ fl.price_for cabin)
    (hst : ∀ e ∈ st.1, L ≤ e.1) (hc : L ≤ cost) :
    ∀ e ∈ (l.foldl (relaxC start ed cabin airport cost time) st).1, L ≤ e.1 :=
  foldlPreserve (relaxC start ed cabin airport cost time) (fun st => ∀ e ∈ st.1, L ≤ e.1) l st
    (fun t b hb ht => relaxC_entries_lb start ed cabin airport cost time t b L ht hc (hl b hb))
    hst

/-- With non-negative cabin prices, fuel beyond the measure guarantees the
cheapest loop terminates normally. -/
theorem cheapestLoop_terminates (g : Graph) (start dest : String) (ed : Int) (cabin : Cabin)
    (Hp : ∀ fl ∈ allFlights g, 0 ≤ fl.price_for cabin) :
    ∀ (fuel : Nat) (pq : PQ2) (bc bt : IMap) (prev : PMap),
      2 * phiCQ g cabin bc pq + pq.length < fuel →
      cheapestLoop g start dest ed cabin fuel pq bc bt prev ≠ none
  | 0, pq, bc, bt, prev, hf => by omega
  | fuel + 1, pq, bc, bt, prev, hf => by
      unfold cheapestLoop
      cases hpop : popMin qltC pq with
      | none => simp
      | some p =>
          obtain ⟨⟨cost, time, airport⟩, pq1⟩ := p
          by_cases hd : airport = dest
          · simp [hd]
          · simp only [if_neg hd]
            have hf0 := popMin_findMin qltC hpop
            have hmem := popMin_mem qltC hpop
            have hlen : pq1.length + 1 = pq.length := by
              rw [popMin_rest qltC hpop]
              exact removeFirst_length pq (cost, time, airport) hmem
            have hphiQ : phiCQ g cabin bc pq = phiC2 g cabin cost bc := by
              unfold phiCQ
              rw [hf0.1]
            have hfold : 2 * phiC2 g cabin cost
                ((getFlights g airport).foldl (relaxC start ed cabin airport cost time)
                  (pq1, bc, bt, prev)).2.1 +
                ((getFlights g airport).foldl (relaxC start ed cabin airport cost time)
                  (pq1, bc, bt, prev)).1.length ≤ 2 * phiC2 g cabin cost bc + pq1.length := by
              simpa using foldl_relaxC_measure g start ed cabin airport cost time
                (getFlights g airport) (pq1, bc, bt, prev)
                (fun fl hfl => getFlights_subset g airport fl hfl)
            have hlb : ∀ e ∈ ((getFlights g airport).foldl
                (relaxC start ed cabin airport cost time) (pq1, bc, bt, prev)).1, cost ≤ e.1 := by
              refine foldl_relaxC_entries_lb start ed cabin airport cost time
                (getFlights g airport) (pq1, bc, bt, prev) cost
                (fun fl hfl => Hp fl (getFlights_subset g airport fl hfl)) ?_ (le_refl _)
              intro e he
              have he' : e ∈ pq := by
                rw [popMin_rest qltC hpop] at he
                exact removeFirst_subset pq (cost, time, airport) e he
              exact popMinC_min hpop e he'
            have hnext : phiCQ g cabin
                ((getFlights g airport).foldl (relaxC start ed cabin airport cost time)
                  (pq1, bc, bt, prev)).2.1
                ((getFlights g airport).foldl (relaxC start ed cabin airport cost time)
                  (pq1, bc, bt, prev)).1 ≤
                phiC2 g cabin cost
                ((getFlights g airport).foldl (relaxC start ed cabin airport cost time)
                  (pq1, bc, bt, prev)).2.1 := by
              unfold phiCQ
              cases hfm : findMin qltC ((getFlights g airport).foldl
                  (relaxC start ed cabin airport cost time) (pq1, bc, bt, prev)).1 with
              | none => exact Nat.zero_le _
              | some m =>
                  have hmc : cost ≤ m.1 :=
                    hlb m (findMin_mem qltC _ m hfm)
                  refine countP_le_of_mono _ _ (allFlights g) ?_
                  intro x _ hx
                  exact improves_antitone hx (by omega)
            exact cheapestLoop_terminates g start dest ed cabin Hp fuel _ _ _ _ (by omega)

theorem phiCQ_le (g : Graph) (cabin : Cabin) (bc : IMap) (pq : PQ2) :
    phiCQ g cabin bc pq ≤ totalFlights g := by
  rw [totalFlights_eq]
  unfold phiCQ
  cases findMin qltC pq with
  | none => exact Nat.zero_le _
  | some m => exact List.countP_le_length _

/-- The cheapest-search loop, run with the fuel used by
`find_cheapest_itinerary`, returns a final state whenever the graph's
prices for the chosen cabin are non-negative. -/
theorem cheapestLoop_top_terminates (g : Graph) (start dest : String) (ed : Int)
    (cabin : Cabin) (Hp : ∀ fl ∈ allFlights g, 0 ≤ fl.price_for cabin) :
    cheapestLoop g start dest ed cabin (fuelFor g)
      [(0, ed, start)] [(start, 0)] [(start, ed)] [] ≠ none := by
  refine cheapestLoop_terminates g start dest ed cabin Hp _ _ _ _ _ ?_
  have := phiCQ_le g cabin [(start, 0)] [(0, ed, start)]
  unfold fuelFor
  simp only [List.length_cons, List.length_nil]
  omega

/-! ## Soundness: whatever the searches record is reachable (claim C5) -/

/-- Reachability with the algorithm's own thresholds: from `start` seeded
at `ed`, an edge is usable when its departure meets the threshold — `ed`
when relaxing from `start`, otherwise arrival plus the layover floor. -/
inductive Reach (g : Graph) (ed : Int) (start : String) : String → Int → Prop
  | base : Reach g ed start start ed
  | step {u : String} {t : Int} {fl : Flight} :
      Reach g ed start u t → fl ∈ getFlights g u →
      (if u = start then ed else t + MIN_LAYOVER_MINUTES) ≤ fl.depart →
      Reach g ed start fl.dest fl.arrive

/-- In a well-formed graph the adjacency key is the flight's origin. -/
theorem getFlights_wf {g : Graph} (Hwf : GraphWF g) {a : String} {fl : Flight}
    (h : fl ∈ getFlights g a) : fl.origin = a := by
  unfold getFlights at h
  cases hg : alookup g a with
  | none => rw [hg] at h; simp at h
  | some l =>
      rw [hg] at h
      simp at h
      exact Hwf (a, l) (alookup_mem g a l hg) fl h

theorem FeasFrom_append (g : Graph) :
    ∀ (fs : List Flight) (v : String) (a : Int) (d : String) (fl : Flight),
      FeasFrom g d v a fs → fl.origin = d → fl ∈ getFlights g d →
      finalArr a fs + MIN_LAYOVER_MINUTES ≤ fl.depart →
      FeasFrom g fl.dest v a (fs ++ [fl])
  | [], v, a, d, fl, hf, ho, hm, hd => by
      unfold FeasFrom at hf
      subst hf
      exact ⟨ho, hm, hd, rfl⟩
  | f :: rest, v, a, d, fl, hf, ho, hm, hd => by
      obtain ⟨h1, h2, h3, h4⟩ := hf
      exact ⟨h1, h2, h3, FeasFrom_append g rest f.dest f.arrive d fl h4 ho hm hd⟩

theorem FeasiblePath_append (g : Graph) (ed : Int) (start d : String) (f : Flight)
    (rest : List Flight) (fl : Flight) (hfp : FeasiblePath g ed start d (f :: rest))
    (ho : fl.origin = d) (hm : fl ∈ getFlights g d)
    (hd : finalArr f.arrive rest + MIN_LAYOVER_MINUTES ≤ fl.depart) :
    FeasiblePath g ed start fl.dest (f :: (rest ++ [fl])) := by
  obtain ⟨h1, h2, h3, h4⟩ := hfp
  exact ⟨h1, h2, h3, FeasFrom_append g rest f.dest f.arrive d fl h4 ho hm hd⟩

/-- Truncation of algorithm-reachability to a claim-style feasible path:
any reachable label away from the start is realized by a feasible path
arriving at exactly that time. -/
theorem reach_to_path (g : Graph) (ed : Int) (start : String) (Hwf : GraphWF g) :
    ∀ (v : String) (a : Int), Reach g ed start v a →
      (v = start ∧ a = ed) ∨
      ∃ f rest, FeasiblePath g ed start v (f :: rest) ∧ finalArr f.arrive rest = a := by
  intro v a hr
  induction hr with
  | base => exact Or.inl ⟨rfl, rfl⟩
  | step hr hm hthr IH =>
      rename_i u t fl
      right
      by_cases hu : u = start
      · subst hu
        rw [if_pos rfl] at hthr
        exact ⟨fl, [], ⟨getFlights_wf Hwf hm, hm, hthr, rfl⟩, rfl⟩
      · rw [if_neg hu] at hthr
        rcases IH with ⟨hv, _⟩ | ⟨f, rest, hfp, hfa⟩
        · exact absurd hv hu
        · refine ⟨f, rest ++ [fl], ?_, ?_⟩
          · refine FeasiblePath_append g ed start u f rest fl hfp
              (getFlights_wf Hwf hm) hm ?_
            omega
          · have : ∀ (l : List Flight) (x : Int) (q : Flight),
                finalArr x (l ++ [q]) = q.arrive := by
              intro l
              induction l with
              | nil => intro x q; rfl
              | cons y l ih => intro x q; exact ih y.arrive q
            exact this rest f.arrive fl

/-- Soundness state of the earliest search: every queue entry, recorded
best time and recorded predecessor arrival is algorithm-reachable. -/
structure ESound (g : Graph) (ed : Int) (start : String)
    (pq : PQ1) (bt : IMap) (prev : PMap) : Prop where
  sq : ∀ e ∈ pq, Reach g ed start e.2 e.1
  sb : ∀ a b, alookup bt a = some b → Reach g ed start a b
  sp : ∀ a fl, alookup prev a = some fl → Reach g ed start a fl.arrive

theorem relaxE_sound (g : Graph) (start : String) (ed : Int) (airport : String)
    (time : Int) (st : PQ1 × IMap × PMap) (fl : Flight) (hm : fl ∈ getFlights g airport)
    (hr : Reach g ed start airport time)
    (h : ESound g ed start st.1 st.2.1 st.2.2) :
    ESound g ed start (relaxE start ed airport time st fl).1
      (relaxE start ed airport time st fl).2.1 (relaxE start ed airport time st fl).2.2 := by
  unfold relaxE
  by_cases h1 : fl.depart < (if airport = start then ed else time + MIN_LAYOVER_MINUTES)
  · rw [if_pos h1]
    exact h
  · rw [if_neg h1]
    have hreach : Reach g ed start fl.dest fl.arrive :=
      Reach.step hr hm (by omega)
    by_cases h2 : improves st.2.1 fl.dest fl.arrive = true
    · rw [if_pos h2]
      refine ⟨?_, ?_, ?_⟩
      · intro e he
        simp only [List.mem_append, List.mem_singleton] at he
        rcases he with he | he
        · exact h.sq e he
        · subst he
          exact hreach
      · intro a b hab
        rw [alookup_cons] at hab
        by_cases ha : a = fl.dest
        · simp [ha] at hab
          subst hab
          subst ha
          exact hreach
        · simp [ha] at hab
          exact h.sb a b hab
      · intro a f2 hab
        rw [alookup_cons] at hab
        by_cases ha : a = fl.dest
        · simp [ha] at hab
          subst hab
          subst ha
          exact hreach
        · simp [ha] at hab
          exact h.sp a f2 hab
    · rw [if_neg h2]
      exact h

theorem earliestLoop_sound (g : Graph) (start dest : String) (ed : Int) :
    ∀ (fuel : Nat) (pq : PQ1) (bt : IMap) (prev : PMap),
      ESound g ed start pq bt prev →
      ∀ bt2 prev2, earliestLoop g start dest ed fuel pq bt prev = some (bt2, prev2) →
        (∀ a b, alookup bt2 a = some b → Reach g ed start a b) ∧
        (∀ a fl, alookup prev2 a = some fl → Reach g ed start a fl.arrive)
  | 0, pq, bt, prev, hs, bt2, prev2, h => by simp [earliestLoop] at h
  | fuel + 1, pq, bt, prev, hs, bt2, prev2, h => by
      unfold earliestLoop at h
      cases hpop : popMin qltE pq with
      | none =>
          rw [hpop] at h
          injection h with h
          injection h with h1 h2
          subst h1
          subst h2
          exact ⟨hs.sb, hs.sp⟩
      | some p =>
          obtain ⟨⟨time, airport⟩, pq1⟩ := p
          rw [hpop] at h
          by_cases hd : airport = dest
          · simp only [hd, if_pos rfl] at h
            injection h with h
            injection h with h1 h2
            subst h1
            subst h2
            exact ⟨hs.sb, hs.sp⟩
          · simp only [if_neg hd] at h
            refine earliestLoop_sound g start dest ed fuel _ _ _ ?_ _ _ h
            have hr : Reach g ed start airport time :=
              hs.sq (time, airport) (popMin_mem qltE hpop)
            have hs1 : ESound g ed start pq1 bt prev :=
              ⟨fun e he => hs.sq e (by
                  rw [popMin_rest qltE hpop] at he
                  exact removeFirst_subset pq (time, airport) e he),
                hs.sb, hs.sp⟩
            exact foldlPreserve (relaxE start ed airport time)
              (fun st => ESound g ed start st.1 st.2.1 st.2.2)
              (getFlights g airport) (pq1, bt, prev)
              (fun t b hb ht => relaxE_sound g start ed airport time t b hb hr ht) hs1

/-- Soundness state of the cheapest search. -/
structure CSound (g : Graph) (ed : Int) (start : String)
    (pq : PQ2) (bt : IMap) (prev : PMap) : Prop where
  sq : ∀ e ∈ pq, Reach g ed start e.2.2 e.2.1
  sb : ∀ a b, alookup bt a = some b → Reach g ed start a b
  sp : ∀ a fl, alookup prev a = some fl → Reach g ed start a fl.arrive

theorem relaxC_sound (g : Graph) (start : String) (ed : Int) (cabin : Cabin)
    (airport : String) (cost time : Int) (st : PQ2 × IMap × IMap × PMap) (fl : Flight)
    (hm : fl ∈ getFlights g airport) (hr : Reach g ed start airport time)
    (h : CSound g ed start st.1 st.2.2.1 st.2.2.2) :
    CSound g ed start (relaxC start ed cabin airport cost time st fl).1
      (relaxC start ed cabin airport cost time st fl).2.2.1
      (relaxC start ed cabin airport cost time st fl).2.2.2 := by
  unfold relaxC
  by_cases h1 : fl.depart < (if airport = start then ed else time + MIN_LAYOVER_MINUTES)
  · rw [if_pos h1]
    exact h
  · rw [if_neg h1]
    have hreach : Reach g ed start fl.dest fl.arrive :=
      Reach.step hr hm (by omega)
    by_cases h2 : improves st.2.1 fl.dest (cost + fl.price_for cabin) = true
    · rw [if_pos h2]
      refine ⟨?_, ?_, ?_⟩
      · intro e he
        simp only [List.mem_append, List.mem_singleton] at he
        rcases he with he | he
        · exact h.sq e he
        · subst he
          exact hreach
      · intro a b hab
        rw [alookup_cons] at hab
        by_cases ha : a = fl.dest
        · simp [ha] at hab
          subst hab
          subst ha
          exact hreach
        · simp [ha] at hab
          exact h.sb a b hab
      · intro a f2 hab
        rw [alookup_cons] at hab
        by_cases ha : a = fl.dest
        · simp [ha] at hab
          subst hab
          subst ha
          exact hreach
        · simp [ha] at hab
          exact h.sp a f2 hab
    · rw [if_neg h2]
      exact h

theorem cheapestLoop_sound (g : Graph) (start dest : String) (ed : Int) (cab : Cabin) :
    ∀ (fuel : Nat) (pq : PQ2) (bc bt : IMap) (prev : PMap),
      CSound g ed start pq bt prev →
      ∀ bc2 bt2 prev2,
        cheapestLoop g start dest ed cab fuel pq bc bt prev = some (bc2, bt2, prev2) →
        (∀ a b, alookup bt2 a = some b → Reach g ed start a b) ∧
        (∀ a fl, alookup prev2 a = some fl → Reach g ed start a fl.arrive)
  | 0, pq, bc, bt, prev, hs, bc2, bt2, prev2, h => by simp [cheapestLoop] at h
  | fuel + 1, pq, bc, bt, prev, hs, bc2, bt2, prev2, h => by
      unfold cheapestLoop at h
      cases hpop : popMin qltC pq with
      | none =>
          rw [hpop] at h
          injection h with h
          injection h with h1 h2
          injection h2 with h2 h3
          subst h2
          subst h3
          exact ⟨hs.sb, hs.sp⟩
      | some p =>
          obtain ⟨⟨cost, time, airport⟩, pq1⟩ := p
          rw [hpop] at h
          by_cases hd : airport = dest
          · simp only [hd, if_pos rfl] at h
            injection h with h
            injection h with h1 h2
            injection h2 with h2 h3
            subst h2
            subst h3
            exact ⟨hs.sb, hs.sp⟩
          · simp only [if_neg hd] at h
            refine cheapestLoop_sound g start dest ed cab fuel _ _ _ _ ?_ _ _ _ h
            have hr : Reach g ed start airport time :=
              hs.sq (cost, time, airport) (popMin_mem qltC hpop)
            have hs1 : CSound g ed start pq1 bt prev :=
              ⟨fun e he => hs.sq e (by
                  rw [popMin_rest qltC hpop] at he
                  exact removeFirst_subset pq (cost, time, airport) e he),
                hs.sb, hs.sp⟩
            exact foldlPreserve (relaxC start ed cab airport cost time)
              (fun st => CSound g ed start st.1 st.2.2.1 st.2.2.2)
              (getFlights g airport) (pq1, bc, bt, prev)
              (fun t b hb ht => relaxC_sound g start ed cab airport cost time t b hb hr ht) hs1

/-- Prices of the chosen cabin are non-negative under the data-model
invariant. -/
theorem price_for_nonneg {g : Graph} (Hp : GraphNonneg g) (cab : Cabin) :
    ∀ fl ∈ allFlights g, 0 ≤ fl.price_for cab := by
  intro fl hfl
  unfold allFlights at hfl
  rcases List.mem_flatten.mp hfl with ⟨l, hl, hfl2⟩
  rcases List.mem_map.mp hl with ⟨p, hp, rfl⟩
  obtain ⟨h1, h2, h3⟩ := Hp p hp fl hfl2
  cases cab <;> assumption

/-- C5: under the data-model invariants (well-formed graph, non-negative
prices), if no feasible chain of flights connects start to dest (start and
dest distinct), both searches return `None` — normally, without fuel
exhaustion, a missing-key error, or any other abnormal outcome. -/
theorem c5_unreachable_returns_none (g : Graph) (start dest : String) (ed : Int)
    (cab : Cabin) (hsd : start ≠ dest) (Hwf : GraphWF g) (Hp : GraphNonneg g)
    (hnopath : ∀ fs, ¬ FeasiblePath g ed start dest fs) :
    find_earliest_itinerary g start dest ed = some none ∧
    find_cheapest_itinerary g start dest ed cab = some none := by
  have hinitE : ESound g ed start [(ed, start)] [(start, ed)] [] := by
    refine ⟨?_, ?_, ?_⟩
    · intro e he
      simp at he
      subst he
      exact Reach.base
    · intro a b hab
      rw [alookup_cons] at hab
      by_cases ha : a = start
      · simp [ha] at hab
        subst hab
        subst ha
        exact Reach.base
      · simp [ha, alookup] at hab
    · intro a fl hab
      simp [alookup] at hab
  have noPrev : ∀ (prev : PMap), (∀ a fl, alookup prev a = some fl →
      Reach g ed start a fl.arrive) → alookup prev dest = none := by
    intro prev hsp
    cases hpd : alookup prev dest with
    | none => rfl
    | some fl =>
        have hr := hsp dest fl hpd
        rcases reach_to_path g ed start Hwf dest fl.arrive hr with ⟨hv, _⟩ | ⟨f, rest, hfp, _⟩
        · exact absurd hv.symm hsd
        · exact absurd hfp (hnopath (f :: rest))
  constructor
  · unfold find_earliest_itinerary
    cases hL : earliestLoop g start dest ed (fuelFor g) [(ed, start)] [(start, ed)] [] with
    | none => exact absurd hL (earliestLoop_top_terminates g start dest ed)
    | some r =>
        obtain ⟨bt2, prev2⟩ := r
        obtain ⟨hsb, hsp⟩ := earliestLoop_sound g start dest ed _ _ _ _ hinitE _ _ hL
        have hpd := noPrev prev2 hsp
        simp [hpd, hsd]
  · unfold find_cheapest_itinerary
    have hinitC : CSound g ed start [(0, ed, start)] [(start, ed)] [] := by
      refine ⟨?_, ?_, ?_⟩
      · intro e he
        simp at he
        subst he
        exact Reach.base
      · intro a b hab
        rw [alookup_cons] at hab
        by_cases ha : a = start
        · simp [ha] at hab
          subst hab
          subst ha
          exact Reach.base
        · simp [ha, alookup] at hab
      · intro a fl hab
        simp [alookup] at hab
    cases hL : cheapestLoop g start dest ed cab (fuelFor g)
        [(0, ed, start)] [(start, 0)] [(start, ed)] [] with
    | none =>
        exact absurd hL
          (cheapestLoop_top_terminates g start dest ed cab (price_for_nonneg Hp cab))
    | some r =>
        obtain ⟨bc2, bt2, prev2⟩ := r
        obtain ⟨hsb, hsp⟩ := cheapestLoop_sound g start dest ed cab _ _ _ _ _ hinitC _ _ _ hL
        have hpd := noPrev prev2 hsp
        simp [hpd]

/-- C5 witness: a concrete graph whose destination is absent. -/
theorem c5_unreachable_returns_none_witness :
    find_earliest_itinerary cxG1 "S" "Z" 0 = some none ∧
    find_cheapest_itinerary cxG1 "S" "Z" 0 .economy = some none := by
  refine c5_unreachable_returns_none cxG1 "S" "Z" 0 .economy (by decide)
    (by unfold GraphWF; decide) (by unfold GraphNonneg; decide) ?_
  have hdest : ∀ (v : String) (f : Flight), f ∈ getFlights cxG1 v → f.dest ≠ "Z" := by
    intro v f hf
    simp only [getFlights, cxG1, alookup] at hf
    by_cases h1 : v = "S"
    · simp [h1] at hf
      rcases hf with rfl | rfl <;> decide
    · by_cases h2 : v = "A"
      · simp [h1, h2] at hf
        rcases hf with rfl | rfl <;> decide
      · simp [h1, h2] at hf
  have key : ∀ (l : List Flight) (v : String) (a : Int), v ≠ "Z" →
      ¬ FeasFrom cxG1 "Z" v a l := by
    intro l
    induction l with
    | nil => intro v a hv h; exact hv h
    | cons f rest ih =>
        intro v a hv h
        obtain ⟨h1, h2, h3, h4⟩ := h
        exact ih f.dest f.arrive (hdest v f h2) h4
  intro fs hfp
  cases fs with
  | nil => exact hfp
  | cons f rest =>
      obtain ⟨h1, h2, h3, h4⟩ := hfp
      exact key rest f.dest f.arrive (hdest "S" f h2) h4

/-! ## Safety of the cheapest-fare reconstruction (claim C6)

The loop invariant records, for every predecessor entry, that its origin's
best cost is smaller — or equal with a layover-compatible recorded time —
so that `(best_cost, best_time)` decreases lexicographically along the
backward walk: the walk can neither cycle nor hit a missing key. -/

/-- Loop-state invariant of the cheapest search used for reconstruction
safety. -/
structure CState (g : Graph) (start : String) (pq : PQ2) (bc bt : IMap) (prev : PMap) :
    Prop where
  qcost : ∀ e ∈ pq, ∃ b, alookup bc e.2.2 = some b ∧ b ≤ e.1
  qtime : ∀ e ∈ pq, alookup bc e.2.2 = some e.1 → alookup bt e.2.2 = some e.2.1
  qprev : ∀ e ∈ pq, e.2.2 = start ∨ (alookup prev e.2.2).isSome
  pdest : ∀ a fl, alookup prev a = some fl → fl.dest = a
  pgraph : ∀ a fl, alookup prev a = some fl → fl.depart < fl.arrive
  plex : ∀ a fl, alookup prev a = some fl →
    ∃ cA tA cO, alookup bc a = some cA ∧ alookup bt a = some tA ∧ tA = fl.arrive ∧
      alookup bc fl.origin = some cO ∧
      (fl.origin = start ∨ cO < cA ∨
        (cO ≤ cA ∧ ∃ tO, alookup bt fl.origin = some tO ∧
          tO + MIN_LAYOVER_MINUTES ≤ fl.depart))
  pkeys : ∀ a fl, alookup prev a = some fl →
    fl.origin = start ∨ (alookup prev fl.origin).isSome

/-- Pop-time facts about the airport being relaxed, maintained through the
fold. -/
structure CAir (start airport : String) (c t : Int) (bc bt : IMap) (prev : PMap) :
    Prop where
  aircost : ∃ b0, alookup bc airport = some b0 ∧ b0 ≤ c
  airfresh : alookup bc airport = some c → alookup bt airport = some t
  airprev : airport = start ∨ (alookup prev airport).isSome

/-- One cheapest-search relaxation preserves the reconstruction-safety
state. -/
theorem relaxC_cstate (g : Graph) (start : String) (ed : Int) (cabin : Cabin)
    (airport : String) (c t : Int) (st : PQ2 × IMap × IMap × PMap) (q : Flight)
    (hq : q ∈ getFlights g airport) (Hwf : GraphWF g) (Hval : GraphValid g)
    (hp : 0 ≤ q.price_for cabin)
    (hcs : CState g start st.1 st.2.1 st.2.2.1 st.2.2.2)
    (hair : CAir start airport c t st.2.1 st.2.2.1 st.2.2.2) :
    CState g start (relaxC start ed cabin airport c t st q).1
      (relaxC start ed cabin airport c t st q).2.1
      (relaxC start ed cabin airport c t st q).2.2.1
      (relaxC start ed cabin airport c t st q).2.2.2 ∧
    CAir start airport c t (relaxC start ed cabin airport c t st q).2.1
      (relaxC start ed cabin airport c t st q).2.2.1
      (relaxC start ed cabin airport c t st q).2.2.2 := by
  have hqo : q.origin = airport := getFlights_wf Hwf hq
  have hqv : q.depart < q.arrive := by
    unfold getFlights at hq
    cases hg : alookup g airport with
    | none => rw [hg] at hq; simp at hq
    | some l =>
        rw [hg] at hq
        simp at hq
        exact Hval (airport, l) (alookup_mem g airport l hg) q hq
  unfold relaxC
  by_cases h1 : q.depart < (if airport = start then ed else t + MIN_LAYOVER_MINUTES)
  · rw [if_pos h1]
    exact ⟨hcs, hair⟩
  · rw [if_neg h1]
    by_cases h2 : improves st.2.1 q.dest (c + q.price_for cabin) = true
    · rw [if_pos h2]
      obtain ⟨b0, hb0, hb0c⟩ := hair.aircost
      have hdair : q.dest ≠ airport := by
        intro hda
        rw [improves_iff] at h2
        rcases h2 with h2 | ⟨b, hb, hlt⟩
        · rw [hda] at h2
          rw [h2] at hb0
          exact absurd hb0 (by simp)
        · rw [hda] at hb
          rw [hb] at hb0
          injection hb0 with hb0
          omega
      constructor
      · refine ⟨?_, ?_, ?_, ?_, ?_, ?_, ?_⟩
        · -- qcost
          intro e he
          simp only [List.mem_append, List.mem_singleton] at he
          rcases he with he | he
          · obtain ⟨b, hb, hbe⟩ := hcs.qcost e he
            by_cases hed : e.2.2 = q.dest
            · refine ⟨c + q.price_for cabin, ?_, ?_⟩
              · rw [hed, alookup_cons_self]
              · rw [improves_iff] at h2
                rcases h2 with h2 | ⟨b2, hb2, hlt⟩
                · rw [hed] at hb
                  rw [h2] at hb
                  exact absurd hb (by simp)
                · rw [hed] at hb
                  rw [hb2] at hb
                  injection hb with hb
                  omega
            · exact ⟨b, by rwa [alookup_cons_ne _ _ hed], hbe⟩
          · subst he
            exact ⟨c + q.price_for cabin, alookup_cons_self _ _ _, le_refl _⟩
        · -- qtime
          intro e he hbc
          simp only [List.mem_append, List.mem_singleton] at he
          rcases he with he | he
          · by_cases hed : e.2.2 = q.dest
            · rw [hed, alookup_cons_self] at hbc
              injection hbc with hbc
              obtain ⟨b, hb, hbe⟩ := hcs.qcost e he
              rw [improves_iff] at h2
              rcases h2 with h2 | ⟨b2, hb2, hlt⟩
              · rw [hed] at hb
                rw [h2] at hb
                exact absurd hb (by simp)
              · rw [hed] at hb
                rw [hb2] at hb
                injection hb with hb
                omega
            · rw [alookup_cons_ne _ _ hed] at hbc
              rw [alookup_cons_ne _ _ hed]
              exact hcs.qtime e he hbc
          · subst he
            simp only [alookup_cons_self]
        · -- qprev
          intro e he
          simp only [List.mem_append, List.mem_singleton] at he
          rcases he with he | he
          · rcases hcs.qprev e he with h | h
            · exact Or.inl h
            · right
              by_cases hed : e.2.2 = q.dest
              · rw [hed, alookup_cons_self]
                simp
              · rwa [alookup_cons_ne _ _ hed]
          · subst he
            right
            simp only [alookup_cons_self]
            simp
        · -- pdest
          intro a fl ha
          rw [alookup_cons] at ha
          by_cases had : a = q.dest
          · simp [had] at ha
            subst ha
            exact had.symm
          · simp [had] at ha
            exact hcs.pdest a fl ha
        · -- pgraph
          intro a fl ha
          rw [alookup_cons] at ha
          by_cases had : a = q.dest
          · simp [had] at ha
            subst ha
            exact hqv
          · simp [had] at ha
            exact hcs.pgraph a fl ha
        · -- plex
          intro a fl ha
          rw [alookup_cons] at ha
          by_cases had : a = q.dest
          · simp [had] at ha
            subst ha
            subst had
            have hod : q.origin ≠ q.dest := by
              rw [hqo]
              exact fun hh => hdair hh.symm
            have horig : alookup ((q.dest, c + q.price_for cabin) :: st.2.1) q.origin
                = some b0 := by
              rw [alookup_cons_ne _ _ hod, hqo]
              exact hb0
            refine ⟨c + q.price_for cabin, q.arrive, b0,
              alookup_cons_self _ _ _, alookup_cons_self _ _ _, rfl, horig, ?_⟩
            by_cases hos : q.origin = start
            · exact Or.inl hos
            · right
              by_cases hb0c2 : b0 = c
              · right
                refine ⟨by omega, t, ?_, ?_⟩
                · rw [alookup_cons_ne _ _ hod, hqo]
                  rw [hb0c2] at hb0
                  exact hair.airfresh hb0
                · rw [hqo] at hos
                  rw [if_neg hos] at h1
                  omega
              · left
                omega
          · simp [had] at ha
            obtain ⟨cA, tA, cO, hcA, htA, htfl, hcO, hdis⟩ := hcs.plex a fl ha
            rw [alookup_cons_ne _ _ had, alookup_cons_ne _ _ had]
            by_cases hod : fl.origin = q.dest
            · refine ⟨cA, tA, c + q.price_for cabin, hcA, htA, htfl, ?_, ?_⟩
              · rw [hod, alookup_cons_self]
              · rcases hdis with hdis | hdis | hdis
                · exact Or.inl hdis
                · right
                  left
                  rw [improves_iff] at h2
                  rcases h2 with h2 | ⟨b2, hb2, hlt⟩
                  · rw [hod] at hcO
                    rw [h2] at hcO
                    exact absurd hcO (by simp)
                  · rw [hod] at hcO
                    rw [hb2] at hcO
                    injection hcO with hcO
                    omega
                · right
                  left
                  obtain ⟨hle, tO, htO, hlay⟩ := hdis
                  rw [improves_iff] at h2
                  rcases h2 with h2 | ⟨b2, hb2, hlt⟩
                  · rw [hod] at hcO
                    rw [h2] at hcO
                    exact absurd hcO (by simp)
                  · rw [hod] at hcO
                    rw [hb2] at hcO
                    injection hcO with hcO
                    omega
            · refine ⟨cA, tA, cO, hcA, htA, htfl, by rwa [alookup_cons_ne _ _ hod], ?_⟩
              rcases hdis with hdis | hdis | hdis
              · exact Or.inl hdis
              · exact Or.inr (Or.inl hdis)
              · obtain ⟨hle, tO, htO, hlay⟩ := hdis
                exact Or.inr (Or.inr ⟨hle, tO, by rwa [alookup_cons_ne _ _ hod], hlay⟩)
        · -- pkeys
          intro a fl ha
          rw [alookup_cons] at ha
          by_cases had : a = q.dest
          · simp [had] at ha
            subst ha
            rcases hair.airprev with h | h
            · left
              rw [hqo]
              exact h
            · right
              by_cases hoq : q.origin = q.dest
              · rw [hoq, alookup_cons_self]
                simp
              · rw [alookup_cons_ne _ _ hoq, hqo]
                exact h
          · simp [had] at ha
            rcases hcs.pkeys a fl ha with h | h
            · exact Or.inl h
            · right
              by_cases hoq : fl.origin = q.dest
              · rw [hoq, alookup_cons_self]
                simp
              · rwa [alookup_cons_ne _ _ hoq]
      · -- CAir
        have hair_ne : airport ≠ q.dest := fun h => hdair h.symm
        refine ⟨⟨b0, ?_, hb0c⟩, ?_, ?_⟩
        · rwa [alookup_cons_ne _ _ hair_ne]
        · intro hc
          rw [alookup_cons_ne _ _ hair_ne] at hc ⊢
          exact hair.airfresh hc
        · rcases hair.airprev with h | h
          · exact Or.inl h
          · right
            rwa [alookup_cons_ne _ _ hair_ne]
    · rw [if_neg h2]
      exact ⟨hcs, hair⟩

/-- The exit facts of the cheapest loop needed for reconstruction
safety. -/
structure PrevSafe (g : Graph) (start : String) (bc bt : IMap) (prev : PMap) : Prop where
  pdest : ∀ a fl, alookup prev a = some fl → fl.dest = a
  pgraph : ∀ a fl, alookup prev a = some fl → fl.depart < fl.arrive
  plex : ∀ a fl, alookup prev a = some fl →
    ∃ cA tA cO, alookup bc a = some cA ∧ alookup bt a = some tA ∧ tA = fl.arrive ∧
      alookup bc fl.origin = some cO ∧
      (fl.origin = start ∨ cO < cA ∨
        (cO ≤ cA ∧ ∃ tO, alookup bt fl.origin = some tO ∧
          tO + MIN_LAYOVER_MINUTES ≤ fl.depart))
  pkeys : ∀ a fl, alookup prev a = some fl →
    fl.origin = start ∨ (alookup prev fl.origin).isSome

theorem cheapestLoop_cstate (g : Graph) (start dest : String) (ed : Int) (cab : Cabin)
    (Hwf : GraphWF g) (Hval : GraphValid g)
    (Hp : ∀ fl ∈ allFlights g, 0 ≤ fl.price_for cab) :
    ∀ (fuel : Nat) (pq : PQ2) (bc bt : IMap) (prev : PMap),
      CState g start pq bc bt prev →
      ∀ bc2 bt2 prev2,
        cheapestLoop g start dest ed cab fuel pq bc bt prev = some (bc2, bt2, prev2) →
        PrevSafe g start bc2 bt2 prev2
  | 0, pq, bc, bt, prev, hs, bc2, bt2, prev2, h => by simp [cheapestLoop] at h
  | fuel + 1, pq, bc, bt, prev, hs, bc2, bt2, prev2, h => by
      unfold cheapestLoop at h
      cases hpop : popMin qltC pq with
      | none =>
          rw [hpop] at h
          injection h with h
          injection h with h1 h2
          injection h2 with h2 h3
          subst h1
          subst h2
          subst h3
          exact ⟨hs.pdest, hs.pgraph, hs.plex, hs.pkeys⟩
      | some p =>
          obtain ⟨⟨cost, time, airport⟩, pq1⟩ := p
          rw [hpop] at h
          by_cases hd : airport = dest
          · simp only [hd, if_pos rfl] at h
            injection h with h
            injection h with h1 h2
            injection h2 with h2 h3
            subst h1
            subst h2
            subst h3
            exact ⟨hs.pdest, hs.pgraph, hs.plex, hs.pkeys⟩
          · simp only [if_neg hd] at h
            refine cheapestLoop_cstate g start dest ed cab Hwf Hval Hp fuel _ _ _ _ ?_ _ _ _ h
            have hmem := popMin_mem qltC hpop
            have hs1 : CState g start pq1 bc bt prev :=
              ⟨fun e he => hs.qcost e (by
                  rw [popMin_rest qltC hpop] at he
                  exact removeFirst_subset pq (cost, time, airport) e he),
                fun e he => hs.qtime e (by
                  rw [popMin_rest qltC hpop] at he
                  exact removeFirst_subset pq (cost, time, airport) e he),
                fun e he => hs.qprev e (by
                  rw [popMin_rest qltC hpop] at he
                  exact removeFirst_subset pq (cost, time, airport) e he),
                hs.pdest, hs.pgraph, hs.plex, hs.pkeys⟩
            have hair : CAir start airport cost time bc bt prev :=
              ⟨hs.qcost (cost, time, airport) hmem,
                hs.qtime (cost, time, airport) hmem,
                hs.qprev (cost, time, airport) hmem⟩
            have := foldlPreserve (relaxC start ed cab airport cost time)
              (fun st => CState g start st.1 st.2.1 st.2.2.1 st.2.2.2 ∧
                CAir start airport cost time st.2.1 st.2.2.1 st.2.2.2)
              (getFlights g airport) (pq1, bc, bt, prev)
              (fun t b hb ht => relaxC_cstate g start ed cab airport cost time t b hb
                Hwf Hval (Hp b (getFlights_subset g airport b hb)) ht.1 ht.2)
              ⟨hs1, hair⟩
            exact this.1

/-! ## Rank argument: the backward walk strictly descends a finite order -/

/-- The `(best_cost, best_time)` pair attached to a location. -/
def lexPair (bc bt : IMap) (a : String) : Int × Int :=
  ((alookup bc a).getD 0, (alookup bt a).getD 0)

/-- Strict lexicographic order on such pairs. -/
def lexOrd (x y : Int × Int) : Prop :=
  x.1 < y.1 ∨ (x.1 = y.1 ∧ x.2 < y.2)

instance (x y : Int × Int) : Decidable (lexOrd x y) := by
  unfold lexOrd
  infer_instance

theorem lexOrd_trans {x y z : Int × Int} (h1 : lexOrd x y) (h2 : lexOrd y z) :
    lexOrd x z := by
  unfold lexOrd at h1 h2 ⊢
  rcases h1 with h1 | ⟨h1a, h1b⟩ <;> rcases h2 with h2 | ⟨h2a, h2b⟩
  · left; omega
  · left; omega
  · left; omega
  · right; exact ⟨by omega, by omega⟩

theorem lexOrd_irrefl (x : Int × Int) : ¬ lexOrd x x := by
  unfold lexOrd
  omega

/-- Number of predecessor keys strictly below `cur` in the lexicographic
order. -/
def prevRank (bc bt : IMap) (prev : PMap) (cur : String) : Nat :=
  ((prev.map Prod.fst).toFinset.filter
    (fun k => lexOrd (lexPair bc bt k) (lexPair bc bt cur))).card

theorem alookup_isSome_mem_keys {prev : PMap} {a : String}
    (h : (alookup prev a).isSome) : a ∈ (prev.map Prod.fst).toFinset := by
  cases hl : alookup prev a with
  | none => rw [hl] at h; simp at h
  | some fl =>
      have := alookup_mem prev a fl hl
      rw [List.mem_toFinset]
      exact List.mem_map.mpr ⟨(a, fl), this, rfl⟩

/-- Along a recorded predecessor link away from `start`, the lexicographic
pair strictly decreases. -/
theorem prevStep_lexOrd {g : Graph} {start : String} {bc bt : IMap} {prev : PMap}
    (hps : PrevSafe g start bc bt prev) {cur : String} {fl : Flight}
    (hfl : alookup prev cur = some fl) (hns : fl.origin ≠ start) :
    lexOrd (lexPair bc bt fl.origin) (lexPair bc bt cur) := by
  obtain ⟨cA, tA, cO, hcA, htA, htfl, hcO, hdis⟩ := hps.plex cur fl hfl
  have harr := hps.pgraph cur fl hfl
  unfold lexPair lexOrd
  rw [hcA, htA, hcO]
  rcases hdis with hdis | hdis | ⟨hle, tO, htO, hlay⟩
  · exact absurd hdis hns
  · left
    simpa using hdis
  · rw [htO]
    simp only [Option.getD_some]
    have : tO < tA := by
      unfold MIN_LAYOVER_MINUTES at hlay
      omega
    omega

theorem prevRank_step {g : Graph} {start : String} {bc bt : IMap} {prev : PMap}
    (hps : PrevSafe g start bc bt prev) {cur : String} {fl : Flight}
    (hfl : alookup prev cur = some fl) (hns : fl.origin ≠ start) :
    prevRank bc bt prev fl.origin < prevRank bc bt prev cur := by
  have hlt := prevStep_lexOrd hps hfl hns
  have hmemO : fl.origin ∈ (prev.map Prod.fst).toFinset := by
    rcases hps.pkeys cur fl hfl with h | h
    · exact absurd h hns
    · exact alookup_isSome_mem_keys h
  unfold prevRank
  apply Finset.card_lt_card
  rw [Finset.ssubset_iff_of_subset]
  · refine ⟨fl.origin, ?_, ?_⟩
    · rw [Finset.mem_filter]
      exact ⟨hmemO, hlt⟩
    · rw [Finset.mem_filter]
      intro hc
      exact lexOrd_irrefl _ hc.2
  · intro k hk
    rw [Finset.mem_filter] at hk ⊢
    exact ⟨hk.1, lexOrd_trans hk.2 hlt⟩

/-- Unfolding of one non-terminal step of the unguarded walk. -/
theorem walkC_cons (fuel : Nat) (prev : PMap) (start cur : String) (hc : cur ≠ start)
    {fl : Flight} (hfl : alookup prev cur = some fl) :
    walkC (fuel + 1) prev start cur =
      match walkC fuel prev start fl.origin with
      | .ok fs => .ok (fl :: fs)
      | r => r := by
  conv_lhs => unfold walkC
  rw [if_neg hc, hfl]

/-- With the safety facts, the unguarded backward walk reaches `start`
within the rank bound: no missing key, no cycle. -/
theorem walkC_safe {g : Graph} {start : String} {bc bt : IMap} {prev : PMap}
    (hps : PrevSafe g start bc bt prev) :
    ∀ (fuel : Nat) (cur : String), (cur = start ∨ (alookup prev cur).isSome) →
      prevRank bc bt prev cur + 2 ≤ fuel →
      ∃ fs, walkC fuel prev start cur = .ok fs
  | 0, cur, hcur, hrank => by omega
  | fuel + 1, cur, hcur, hrank => by
      by_cases hc : cur = start
      · refine ⟨[], ?_⟩
        unfold walkC
        rw [if_pos hc]
      · rcases hcur with h | h
        · exact absurd h hc
        cases hfl : alookup prev cur with
        | none => rw [hfl] at h; simp at h
        | some fl =>
            by_cases hos : fl.origin = start
            · cases fuel with
              | zero => omega
              | succ fuel2 =>
                  refine ⟨[fl], ?_⟩
                  rw [walkC_cons (fuel2 + 1) prev start cur hc hfl]
                  have hbase : walkC (fuel2 + 1) prev start fl.origin = .ok [] := by
                    unfold walkC
                    rw [if_pos hos]
                  rw [hbase]
            · have hrankO := prevRank_step hps hfl hos
              have hkey : (alookup prev fl.origin).isSome := by
                rcases hps.pkeys cur fl hfl with hk | hk
                · exact absurd hk hos
                · exact hk
              obtain ⟨fs, hfs⟩ := walkC_safe hps fuel fl.origin (Or.inr hkey) (by omega)
              refine ⟨fl :: fs, ?_⟩
              rw [walkC_cons fuel prev start cur hc hfl, hfs]

/-- Shared reconstruction-safety lemma: whenever the cheapest-search loop
ends with `dest` recorded in `prev`, the unguarded backward walk
succeeds within `prev.length + 1` steps. -/
theorem cheapest_reconstruction_ok (g : Graph) (start dest : String) (ed : Int)
    (cab : Cabin) (Hwf : GraphWF g) (Hval : GraphValid g)
    (Hp : ∀ fl ∈ allFlights g, 0 ≤ fl.price_for cab) :
    ∀ (bc bt : IMap) (prev : PMap),
      cheapestLoop g start dest ed cab (fuelFor g)
        [(0, ed, start)] [(start, 0)] [(start, ed)] [] = some (bc, bt, prev) →
      (alookup prev dest).isSome →
      ∃ fs, walkC (prev.length + 1) prev start dest = .ok fs := by
  intro bc bt prev hL hdest
  have hinit : CState g start [(0, ed, start)] [(start, 0)] [(start, ed)] [] := by
    refine ⟨?_, ?_, ?_, ?_, ?_, ?_, ?_⟩
    · intro e he
      simp at he
      subst he
      exact ⟨0, alookup_cons_self _ _ _, le_refl _⟩
    · intro e he
      simp at he
      subst he
      intro _
      exact alookup_cons_self _ _ _
    · intro e he
      simp at he
      subst he
      exact Or.inl rfl
    · intro a fl ha
      simp [alookup] at ha
    · intro a fl ha
      simp [alookup] at ha
    · intro a fl ha
      simp [alookup] at ha
    · intro a fl ha
      simp [alookup] at ha
  have hps := cheapestLoop_cstate g start dest ed cab Hwf Hval Hp _ _ _ _ _ hinit _ _ _ hL
  have hdmem : dest ∈ (prev.map Prod.fst).toFinset := alookup_isSome_mem_keys hdest
  have hrank : prevRank bc bt prev dest + 2 ≤ prev.length + 1 := by
    have hsub : (prev.map Prod.fst).toFinset.filter
        (fun k => lexOrd (lexPair bc bt k) (lexPair bc bt dest)) ⊆
        ((prev.map Prod.fst).toFinset).erase dest := by
      intro k hk
      rw [Finset.mem_filter] at hk
      rw [Finset.mem_erase]
      refine ⟨?_, hk.1⟩
      intro hkd
      subst hkd
      exact lexOrd_irrefl _ hk.2
    have h1 : prevRank bc bt prev dest ≤ ((prev.map Prod.fst).toFinset).card - 1 := by
      have := Finset.card_le_card hsub
      rw [Finset.card_erase_of_mem hdmem] at this
      exact this
    have h2 : ((prev.map Prod.fst).toFinset).card ≤ prev.length := by
      have := List.toFinset_card_le (prev.map Prod.fst)
      rwa [List.length_map] at this
    have h3 : 1 ≤ ((prev.map Prod.fst).toFinset).card :=
      Finset.card_pos.mpr ⟨dest, hdmem⟩
    omega
  exact walkC_safe hps (prev.length + 1) dest (Or.inr hdest) hrank

/-- C6: assuming non-negative prices for the chosen cabin (and the
data-model invariants of a well-formed graph with `arrive > depart`),
whenever the cheapest-search loop ends with `dest` present in the
predecessor map, the unguarded backward walk performed by
`find_cheapest_itinerary` succeeds: it never accesses a missing key
(`KeyError` unreachable) and reaches `start` within its fuel (no
predecessor cycle). -/
theorem c6_cheapest_reconstruction_safe (g : Graph) (start dest : String) (ed : Int)
    (cab : Cabin) (Hwf : GraphWF g) (Hval : GraphValid g)
    (Hp : ∀ fl ∈ allFlights g, 0 ≤ fl.price_for cab) :
    ∀ (bc bt : IMap) (prev : PMap),
      cheapestLoop g start dest ed cab (fuelFor g)
        [(0, ed, start)] [(start, 0)] [(start, ed)] [] = some (bc, bt, prev) →
      (alookup prev dest).isSome →
      ∃ fs, walkC (prev.length + 1) prev start dest = .ok fs :=
  cheapest_reconstruction_ok g start dest ed cab Hwf Hval Hp

/-- C6 witness: on the concrete graph `cxG1` the loop records `D` and the
unguarded walk succeeds. -/
theorem c6_cheapest_reconstruction_safe_witness :
    ∃ fs, walkC ([("D", cxF4), ("A", cxF1)].length + 1) [("D", cxF4), ("A", cxF1)] "S" "D"
      = .ok fs :=
  c6_cheapest_reconstruction_safe cxG1 "S" "D" 0 .economy
    (by unfold GraphWF; decide) (by unfold GraphValid; decide)
    (by unfold allFlights; decide)
    [("D", 110), ("A", 10), ("S", 0)] [("D", 400), ("A", 200), ("S", 0)]
    [("D", cxF4), ("A", cxF1)] (by decide) (by decide)

/-! ## The earliest-arrival loop invariant (claims C3 and C10)

The invariant pins the seed label of `start`, bounds every queue entry's
time from below by its airport's recorded best time, keeps predecessor
entries consistent with `best_time`, records layover-compatibility of
each predecessor link, and — the key completeness fact — knows that every
recorded label either still has a queue entry at its current value or has
already relaxed all its feasible outbound flights. -/

/-- In a valid graph every adjacency flight arrives after it departs. -/
theorem getFlights_valid {g : Graph} (Hval : GraphValid g) {a : String} {fl : Flight}
    (h : fl ∈ getFlights g a) : fl.depart < fl.arrive := by
  unfold getFlights at h
  cases hg : alookup g a with
  | none => rw [hg] at h; simp at h
  | some l =>
      rw [hg] at h
      simp at h
      exact Hval (a, l) (alookup_mem g a l hg) fl h

/-- Loop-state invariant of the earliest-arrival search. -/
structure EState (g : Graph) (start dest : String) (ed : Int)
    (pq : PQ1) (bt : IMap) (prev : PMap) : Prop where
  qbt : ∀ e ∈ pq, ∃ b, alookup bt e.2 = some b ∧ b ≤ e.1
  eed : ∀ a b, alookup bt a = some b → ed ≤ b
  sed : alookup bt start = some ed
  pbt : ∀ a fl, alookup prev a = some fl → alookup bt a = some fl.arrive
  pdest : ∀ a fl, alookup prev a = some fl → fl.dest = a
  pgraph : ∀ a fl, alookup prev a = some fl → fl.depart < fl.arrive
  plex : ∀ a fl, alookup prev a = some fl → fl.origin = start ∨
    ∃ tO, alookup bt fl.origin = some tO ∧ tO + MIN_LAYOVER_MINUTES ≤ fl.depart
  relaxed : ∀ a b, alookup bt a = some b → (b, a) ∈ pq ∨
    ∀ q ∈ getFlights g a, (if a = start then ed else b + MIN_LAYOVER_MINUTES) ≤ q.depart →
      ∃ c, alookup bt q.dest = some c ∧ c ≤ q.arrive
  destq : ∀ fl, alookup prev dest = some fl → ∃ t, (t, dest) ∈ pq

/-- Fold-state invariant during one iteration's relaxations from
`airport`, popped at `time` (with `airport ≠ dest` in the continuing
branch).  The `relaxed` field exempts `airport` itself, whose outbound
flights are being processed. -/
structure EFold (g : Graph) (start dest : String) (ed : Int) (airport : String)
    (time : Int) (st : PQ1 × IMap × PMap) : Prop where
  qbt : ∀ e ∈ st.1, ∃ b, alookup st.2.1 e.2 = some b ∧ b ≤ e.1
  eed : ∀ a b, alookup st.2.1 a = some b → ed ≤ b
  sed : alookup st.2.1 start = some ed
  pbt : ∀ a fl, alookup st.2.2 a = some fl → alookup st.2.1 a = some fl.arrive
  pdest : ∀ a fl, alookup st.2.2 a = some fl → fl.dest = a
  pgraph : ∀ a fl, alookup st.2.2 a = some fl → fl.depart < fl.arrive
  plex : ∀ a fl, alookup st.2.2 a = some fl → fl.origin = start ∨
    ∃ tO, alookup st.2.1 fl.origin = some tO ∧ tO + MIN_LAYOVER_MINUTES ≤ fl.depart
  relaxedX : ∀ a b, a ≠ airport → alookup st.2.1 a = some b → (b, a) ∈ st.1 ∨
    ∀ q ∈ getFlights g a, (if a = start then ed else b + MIN_LAYOVER_MINUTES) ≤ q.depart →
      ∃ c, alookup st.2.1 q.dest = some c ∧ c ≤ q.arrive
  destq : ∀ fl, alookup st.2.2 dest = some fl → ∃ t, (t, dest) ∈ st.1
  airle : ∃ b, alookup st.2.1 airport = some b ∧ b ≤ time

/-- One earliest-search relaxation preserves the fold invariant. -/
theorem relaxE_efold (g : Graph) (start dest : String) (ed : Int) (airport : String)
    (time : Int) (st : PQ1 × IMap × PMap) (q : Flight)
    (hq : q ∈ getFlights g airport) (Hwf : GraphWF g) (Hval : GraphValid g)
    (hta : ed ≤ time)
    (h : EFold g start dest ed airport time st) :
    EFold g start dest ed airport time (relaxE start ed airport time st q) := by
  have hqo : q.origin = airport := getFlights_wf Hwf hq
  have hqv : q.depart < q.arrive := getFlights_valid Hval hq
  unfold relaxE
  by_cases h1 : q.depart < (if airport = start then ed else time + MIN_LAYOVER_MINUTES)
  · rw [if_pos h1]
    exact h
  · rw [if_neg h1]
    have hdep : ed ≤ q.depart := by
      by_cases has : airport = start
      · rw [if_pos has] at h1
        omega
      · rw [if_neg has] at h1
        unfold MIN_LAYOVER_MINUTES at h1
        omega
    by_cases h2 : improves st.2.1 q.dest q.arrive = true
    · rw [if_pos h2]
      have hne_start : q.dest ≠ start := by
        intro hds
        rw [improves_iff] at h2
        rcases h2 with h2 | ⟨b2, hb2, hlt⟩
        · rw [hds, h.sed] at h2
          exact absurd h2 (by simp)
        · rw [hds, h.sed] at hb2
          injection hb2 with hb2
          omega
      refine ⟨?_, ?_, ?_, ?_, ?_, ?_, ?_, ?_, ?_, ?_⟩
      · -- qbt
        intro e he
        simp only [List.mem_append, List.mem_singleton] at he
        rcases he with he | he
        · obtain ⟨b, hb, hbe⟩ := h.qbt e he
          by_cases hed : e.2 = q.dest
          · refine ⟨q.arrive, by rw [hed, alookup_cons_self], ?_⟩
            rw [improves_iff] at h2
            rcases h2 with h2 | ⟨b2, hb2, hlt⟩
            · rw [hed, h2] at hb
              exact absurd hb (by simp)
            · rw [hed, hb2] at hb
              injection hb with hb
              omega
          · exact ⟨b, by rwa [alookup_cons_ne _ _ hed], hbe⟩
        · subst he
          exact ⟨q.arrive, alookup_cons_self _ _ _, le_refl _⟩
      · -- eed
        intro a b hab
        rw [alookup_cons] at hab
        by_cases had : a = q.dest
        · simp [had] at hab
          omega
        · simp [had] at hab
          exact h.eed a b hab
      · -- sed
        rw [alookup_cons_ne _ _ (fun hh => hne_start hh.symm)]
        exact h.sed
      · -- pbt
        intro a fl hab
        rw [alookup_cons] at hab
        by_cases had : a = q.dest
        · simp [had] at hab
          subst hab
          rw [had, alookup_cons_self]
        · simp [had] at hab
          rw [alookup_cons_ne _ _ had]
          exact h.pbt a fl hab
      · -- pdest
        intro a fl hab
        rw [alookup_cons] at hab
        by_cases had : a = q.dest
        · simp [had] at hab
          subst hab
          exact had.symm
        · simp [had] at hab
          exact h.pdest a fl hab
      · -- pgraph
        intro a fl hab
        rw [alookup_cons] at hab
        by_cases had : a = q.dest
        · simp [had] at hab
          subst hab
          exact hqv
        · simp [had] at hab
          exact h.pgraph a fl hab
      · -- plex
        intro a fl hab
        rw [alookup_cons] at hab
        by_cases had : a = q.dest
        · simp [had] at hab
          subst hab
          by_cases has : airport = start
          · exact Or.inl (by rwa [hqo])
          · right
            obtain ⟨b, hb, hble⟩ := h.airle
            by_cases hoq : q.origin = q.dest
            · exfalso
              have hda : q.dest = airport := by rw [← hoq, hqo]
              rw [improves_iff] at h2
              rcases h2 with h2 | ⟨b2, hb2, hlt⟩
              · rw [hda] at h2
                rw [h2] at hb
                exact absurd hb (by simp)
              · rw [hda] at hb2
                rw [hb2] at hb
                injection hb with hb
                rw [if_neg has] at h1
                unfold MIN_LAYOVER_MINUTES at h1
                omega
            · refine ⟨b, by rw [alookup_cons_ne _ _ hoq, hqo]; exact hb, ?_⟩
              rw [if_neg has] at h1
              unfold MIN_LAYOVER_MINUTES at h1 ⊢
              omega
        · simp [had] at hab
          rcases h.plex a fl hab with hp | ⟨tO, htO, hlay⟩
          · exact Or.inl hp
          · right
            by_cases hod : fl.origin = q.dest
            · refine ⟨q.arrive, by rw [hod, alookup_cons_self], ?_⟩
              rw [improves_iff] at h2
              rcases h2 with h2 | ⟨b2, hb2, hlt⟩
              · rw [hod, h2] at htO
                exact absurd htO (by simp)
              · rw [hod, hb2] at htO
                injection htO with htO
                omega
            · exact ⟨tO, by rwa [alookup_cons_ne _ _ hod], hlay⟩
      · -- relaxedX
        intro a b hna hab
        rw [alookup_cons] at hab
        by_cases had : a = q.dest
        · simp [had] at hab
          subst hab
          left
          subst had
          simp
        · simp [had] at hab
          rcases h.relaxedX a b hna hab with hl | hr
          · left
            simp [hl]
          · right
            intro q2 hq2 hthr
            obtain ⟨c, hc, hce⟩ := hr q2 hq2 hthr
            by_cases hqd : q2.dest = q.dest
            · refine ⟨q.arrive, by rw [hqd, alookup_cons_self], ?_⟩
              rw [improves_iff] at h2
              rcases h2 with h2 | ⟨b2, hb2, hlt⟩
              · rw [hqd, h2] at hc
                exact absurd hc (by simp)
              · rw [hqd, hb2] at hc
                injection hc with hc
                omega
            · exact ⟨c, by rwa [alookup_cons_ne _ _ hqd], hce⟩
      · -- destq
        intro fl hab
        rw [alookup_cons] at hab
        by_cases had : dest = q.dest
        · refine ⟨q.arrive, ?_⟩
          simp [had]
        · simp [had] at hab
          obtain ⟨t2, ht2⟩ := h.destq fl hab
          exact ⟨t2, by simp [ht2]⟩
      · -- airle
        obtain ⟨b, hb, hble⟩ := h.airle
        by_cases haq : airport = q.dest
        · refine ⟨q.arrive, by rw [haq, alookup_cons_self], ?_⟩
          rw [improves_iff] at h2
          rcases h2 with h2 | ⟨b2, hb2, hlt⟩
          · rw [haq] at hb
            rw [h2] at hb
            exact absurd hb (by simp)
          · rw [haq] at hb
            rw [hb2] at hb
            injection hb with hb
            omega
        · exact ⟨b, by rwa [alookup_cons_ne _ _ haq], hble⟩
    · rw [if_neg h2]
      exact h

/-- One relaxation never raises a recorded best time. -/
theorem relaxE_btLE (start : String) (ed : Int) (airport : String) (time : Int)
    (st : PQ1 × IMap × PMap) (q : Flight) :
    ∀ x b, alookup st.2.1 x = some b →
      ∃ b2, alookup (relaxE start ed airport time st q).2.1 x = some b2 ∧ b2 ≤ b := by
  intro x b hx
  unfold relaxE
  by_cases h1 : q.depart < (if airport = start then ed else time + MIN_LAYOVER_MINUTES)
  · rw [if_pos h1]
    exact ⟨b, hx, le_refl _⟩
  · rw [if_neg h1]
    by_cases h2 : improves st.2.1 q.dest q.arrive = true
    · rw [if_pos h2]
      by_cases hxd : x = q.dest
      · refine ⟨q.arrive, by rw [hxd, alookup_cons_self], ?_⟩
        rw [improves_iff] at h2
        rcases h2 with h2 | ⟨b2, hb2, hlt⟩
        · rw [hxd, h2] at hx
          exact absurd hx (by simp)
        · rw [hxd, hb2] at hx
          injection hx with hx
          omega
      · exact ⟨b, by rwa [alookup_cons_ne _ _ hxd], le_refl _⟩
    · rw [if_neg h2]
      exact ⟨b, hx, le_refl _⟩

theorem foldl_relaxE_btLE (start : String) (ed : Int) (airport : String) (time : Int) :
    ∀ (l : List Flight) (st : PQ1 × IMap × PMap) (x : String) (b : Int),
      alookup st.2.1 x = some b →
      ∃ b2, alookup (l.foldl (relaxE start ed airport time) st).2.1 x = some b2 ∧ b2 ≤ b
  | [], st, x, b, hx => ⟨b, hx, le_refl _⟩
  | q :: l, st, x, b, hx => by
      obtain ⟨b1, hb1, hb1e⟩ := relaxE_btLE start ed airport time st q x b hx
      obtain ⟨b2, hb2, hb2e⟩ := foldl_relaxE_btLE start ed airport time l
        (relaxE start ed airport time st q) x b1 hb1
      exact ⟨b2, hb2, by omega⟩

/-- Any recorded best time after the fold is the original one or is
carried by a queue entry of the folded state. -/
theorem foldl_relaxE_pushOrSame (start : String) (ed : Int) (airport : String)
    (time : Int) (l : List Flight) (st0 : PQ1 × IMap × PMap) :
    ∀ x b, alookup (l.foldl (relaxE start ed airport time) st0).2.1 x = some b →
      alookup st0.2.1 x = some b ∨ (b, x) ∈ (l.foldl (relaxE start ed airport time) st0).1 := by
  have main := foldlPreserve (relaxE start ed airport time)
    (fun st => ∀ x b, alookup st.2.1 x = some b →
      alookup st0.2.1 x = some b ∨ (b, x) ∈ st.1) l st0 ?_ ?_
  · exact main
  · intro t q _ ht x b hx
    revert hx
    unfold relaxE
    by_cases h1 : q.depart < (if airport = start then ed else time + MIN_LAYOVER_MINUTES)
    · rw [if_pos h1]
      exact ht x b
    · rw [if_neg h1]
      by_cases h2 : improves t.2.1 q.dest q.arrive = true
      · rw [if_pos h2]
        intro hx
        by_cases hxd : x = q.dest
        · rw [hxd, alookup_cons_self] at hx
          injection hx with hx
          right
          subst hx
          subst hxd
          simp
        · rw [alookup_cons_ne _ _ hxd] at hx
          rcases ht x b hx with h | h
          · exact Or.inl h
          · right
            simp [h]
      · rw [if_neg h2]
        exact ht x b
  · intro x b hx
    exact Or.inl hx

/-- Queue entries survive the fold. -/
theorem foldl_relaxE_pqGrow (start : String) (ed : Int) (airport : String) (time : Int)
    (l : List Flight) (st0 : PQ1 × IMap × PMap) :
    ∀ e ∈ st0.1, e ∈ (l.foldl (relaxE start ed airport time) st0).1 := by
  have main := foldlPreserve (relaxE start ed airport time)
    (fun st => ∀ e ∈ st0.1, e ∈ st.1) l st0 ?_ ?_
  · exact main
  · intro t q _ ht e he
    have := ht e he
    revert this
    unfold relaxE
    by_cases h1 : q.depart < (if airport = start then ed else time + MIN_LAYOVER_MINUTES)
    · rw [if_pos h1]
      exact id
    · rw [if_neg h1]
      by_cases h2 : improves t.2.1 q.dest q.arrive = true
      · rw [if_pos h2]
        intro h
        simp [h]
      · rw [if_neg h2]
        exact id
  · exact fun e he => he

/-- After the fold, every outbound flight meeting the iteration's
threshold has a recorded best time no later than its arrival. -/
theorem foldl_relaxE_processed (start : String) (ed : Int) (airport : String)
    (time : Int) :
    ∀ (l : List Flight) (st : PQ1 × IMap × PMap), ∀ q ∈ l,
      (if airport = start then ed else time + MIN_LAYOVER_MINUTES) ≤ q.depart →
      ∃ c, alookup (l.foldl (relaxE start ed airport time) st).2.1 q.dest = some c ∧
        c ≤ q.arrive
  | [], st, q, hq, _ => by simp at hq
  | f :: l, st, q, hq, hthr => by
      rcases List.mem_cons.mp hq with rfl | hq2
      · have hstep : ∃ c, alookup (relaxE start ed airport time st q).2.1 q.dest = some c ∧
            c ≤ q.arrive := by
          unfold relaxE
          rw [if_neg (by omega)]
          by_cases h2 : improves st.2.1 q.dest q.arrive = true
          · rw [if_pos h2]
            exact ⟨q.arrive, alookup_cons_self _ _ _, le_refl _⟩
          · rw [if_neg h2]
            rw [improves_iff] at h2
            push_neg at h2
            obtain ⟨hnone, hsome⟩ := h2
            cases hl : alookup st.2.1 q.dest with
            | none => exact absurd hl hnone
            | some b =>
                refine ⟨b, rfl, ?_⟩
                have := hsome b hl
                omega
        obtain ⟨c, hc, hce⟩ := hstep
        obtain ⟨c2, hc2, hc2e⟩ := foldl_relaxE_btLE start ed airport time l
          (relaxE start ed airport time st q) q.dest c hc
        exact ⟨c2, by simpa using hc2, by omega⟩
      · exact foldl_relaxE_processed start ed airport time l
          (relaxE start ed airport time st f) q hq2 hthr

/-- One full iteration of the earliest loop (pop plus relaxations)
preserves the loop invariant. -/
theorem earliestIter (g : Graph) (start dest : String) (ed : Int) (Hwf : GraphWF g)
    (Hval : GraphValid g) (pq : PQ1) (bt : IMap) (prev : PMap)
    (hs : EState g start dest ed pq bt prev) (tp : Int) (airport : String) (pq1 : PQ1)
    (hpop : popMin qltE pq = some ((tp, airport), pq1)) (hnd : airport ≠ dest) :
    EState g start dest ed
      ((getFlights g airport).foldl (relaxE start ed airport tp) (pq1, bt, prev)).1
      ((getFlights g airport).foldl (relaxE start ed airport tp) (pq1, bt, prev)).2.1
      ((getFlights g airport).foldl (relaxE start ed airport tp) (pq1, bt, prev)).2.2 := by
  have hmem := popMin_mem qltE hpop
  obtain ⟨bs, hbs, hbse⟩ := hs.qbt (tp, airport) hmem
  have hta : ed ≤ tp := le_trans (hs.eed airport bs hbs) hbse
  have hrest : ∀ e ∈ pq1, e ∈ pq := by
    intro e he
    rw [popMin_rest qltE hpop] at he
    exact removeFirst_subset pq (tp, airport) e he
  have hinitF : EFold g start dest ed airport tp (pq1, bt, prev) := by
    refine ⟨fun e he => hs.qbt e (hrest e he), hs.eed, hs.sed, hs.pbt, hs.pdest,
      hs.pgraph, hs.plex, ?_, ?_, ⟨bs, hbs, hbse⟩⟩
    · intro a b hna hab
      rcases hs.relaxed a b hab with hl | hr
      · left
        rw [popMin_rest qltE hpop]
        exact removeFirst_mem_of_ne pq (tp, airport) (b, a) hl
          (by intro hc; injection hc with h1 h2; exact hna h2)
      · exact Or.inr hr
    · intro fl hfl
      obtain ⟨t2, ht2⟩ := hs.destq fl hfl
      refine ⟨t2, ?_⟩
      rw [popMin_rest qltE hpop]
      exact removeFirst_mem_of_ne pq (tp, airport) (t2, dest) ht2
        (by intro hc; injection hc with h1 h2; exact hnd h2.symm)
  have hF := foldlPreserve (relaxE start ed airport tp)
    (EFold g start dest ed airport tp) (getFlights g airport) (pq1, bt, prev)
    (fun t b hb ht => relaxE_efold g start dest ed airport tp t b hb Hwf Hval hta ht)
    hinitF
  refine ⟨hF.qbt, hF.eed, hF.sed, hF.pbt, hF.pdest, hF.pgraph, hF.plex, ?_, hF.destq⟩
  intro a b hab
  by_cases hna : a = airport
  · subst hna
    rcases foldl_relaxE_pushOrSame start ed a tp (getFlights g a) (pq1, bt, prev) a b
        hab with hsame | hpush
    · have hsame2 : alookup bt a = some b := hsame
      have hbb : b = bs := by
        have h2 := hsame2.symm.trans hbs
        injection h2
      subst hbb
      rcases hs.relaxed a b hbs with hl | hr
      · by_cases hfr : b = tp
        · right
          intro q hq hthr
          refine foldl_relaxE_processed start ed a tp (getFlights g a) (pq1, bt, prev)
            q hq ?_
          subst hfr
          exact hthr
        · left
          refine foldl_relaxE_pqGrow start ed a tp (getFlights g a) (pq1, bt, prev)
            (b, a) ?_
          rw [popMin_rest qltE hpop]
          exact removeFirst_mem_of_ne pq (tp, a) (b, a) hl
            (by intro hc; injection hc with h1 h2; exact hfr h1)
      · right
        intro q hq hthr
        obtain ⟨c, hc, hce⟩ := hr q hq hthr
        obtain ⟨c2, hc2, hc2e⟩ := foldl_relaxE_btLE start ed a tp (getFlights g a)
          (pq1, bt, prev) q.dest c hc
        exact ⟨c2, hc2, by omega⟩
    · exact Or.inl hpush
  · exact hF.relaxedX a b hna hab

/-- Arrivals never decrease along a feasible continuation. -/
theorem feasFrom_mono (g : Graph) (dest : String) (Hval : GraphValid g) :
    ∀ (fs : List Flight) (v : String) (a : Int),
      FeasFrom g dest v a fs → a ≤ finalArr a fs
  | [], v, a, _ => le_refl _
  | f :: rest, v, a, h => by
      obtain ⟨h1, h2, h3, h4⟩ := h
      have hv := getFlights_valid Hval h2
      have ih := feasFrom_mono g dest Hval rest f.dest f.arrive h4
      show a ≤ finalArr f.arrive rest
      unfold MIN_LAYOVER_MINUTES at h3
      omega

/-- Completeness bound: in an invariant state whose queue minimum is
`tp`, the best time recorded for `dest` (itself at most `tp`) bounds from
below no feasible continuation's final arrival from any label-bounded
location. -/
theorem ebound (g : Graph) (start dest : String) (ed : Int) (Hval : GraphValid g)
    (pq : PQ1) (bt : IMap) (prev : PMap) (hs : EState g start dest ed pq bt prev)
    (tp : Int) (hmin : ∀ e ∈ pq, tp ≤ e.1) (bd : Int)
    (hbd : alookup bt dest = some bd) (hbdt : bd ≤ tp) :
    ∀ (fs : List Flight) (v : String) (a : Int) (bv : Int),
      alookup bt v = some bv → bv ≤ a → ed ≤ a → FeasFrom g dest v a fs →
      bd ≤ finalArr a fs
  | [], v, a, bv, hbv, hbva, hea, hf => by
      have hv : v = dest := hf
      subst hv
      have : bv = bd := by
        have h2 := hbv.symm.trans hbd
        injection h2
      subst this
      exact le_trans hbva (le_refl _)
  | f :: rest, v, a, bv, hbv, hbva, hea, hf => by
      obtain ⟨h1, h2, h3, h4⟩ := hf
      have hfv := getFlights_valid Hval h2
      rcases hs.relaxed v bv hbv with hl | hr
      · have htpbv := hmin (bv, v) hl
        have hmono := feasFrom_mono g dest Hval (f :: rest) v a ⟨h1, h2, h3, h4⟩
        omega
      · have hthr : (if v = start then ed else bv + MIN_LAYOVER_MINUTES) ≤ f.depart := by
          by_cases hvs : v = start
          · rw [if_pos hvs]
            unfold MIN_LAYOVER_MINUTES at h3
            omega
          · rw [if_neg hvs]
            unfold MIN_LAYOVER_MINUTES at h3 ⊢
            omega
        obtain ⟨c, hc, hce⟩ := hr f h2 hthr
        have hrec := ebound g start dest ed Hval pq bt prev hs tp hmin bd hbd hbdt
          rest f.dest f.arrive c hc hce (by unfold MIN_LAYOVER_MINUTES at h3; omega) h4
        exact hrec

/-- Exit facts of the earliest loop. -/
structure EExit (g : Graph) (start dest : String) (ed : Int) (bt : IMap) (prev : PMap) :
    Prop where
  pbt : ∀ a fl, alookup prev a = some fl → alookup bt a = some fl.arrive
  pdest : ∀ a fl, alookup prev a = some fl → fl.dest = a
  pgraph : ∀ a fl, alookup prev a = some fl → fl.depart < fl.arrive
  plex : ∀ a fl, alookup prev a = some fl → fl.origin = start ∨
    ∃ tO, alookup bt fl.origin = some tO ∧ tO + MIN_LAYOVER_MINUTES ≤ fl.depart
  opt : ∀ fl, alookup prev dest = some fl → ∀ (f : Flight) (rest : List Flight),
    FeasiblePath g ed start dest (f :: rest) → fl.arrive ≤ finalArr f.arrive rest

/-- The earliest loop, from any invariant state, exits into the exit
facts: predecessor consistency for reconstruction, and optimality of the
recorded destination label. -/
theorem earliestLoop_exit (g : Graph) (start dest : String) (ed : Int)
    (Hwf : GraphWF g) (Hval : GraphValid g) :
    ∀ (fuel : Nat) (pq : PQ1) (bt : IMap) (prev : PMap),
      EState g start dest ed pq bt prev →
      ∀ bt2 prev2, earliestLoop g start dest ed fuel pq bt prev = some (bt2, prev2) →
        EExit g start dest ed bt2 prev2
  | 0, pq, bt, prev, hs, bt2, prev2, h => by simp [earliestLoop] at h
  | fuel + 1, pq, bt, prev, hs, bt2, prev2, h => by
      unfold earliestLoop at h
      cases hpop : popMin qltE pq with
      | none =>
          rw [hpop] at h
          injection h with h
          injection h with h1 h2
          subst h1
          subst h2
          refine ⟨hs.pbt, hs.pdest, hs.pgraph, hs.plex, ?_⟩
          intro fl hfl f rest hfp
          obtain ⟨t2, ht2⟩ := hs.destq fl hfl
          rw [popMin_none qltE hpop] at ht2
          simp at ht2
      | some p =>
          obtain ⟨⟨tp, airport⟩, pq1⟩ := p
          rw [hpop] at h
          by_cases hd : airport = dest
          · simp only [hd, if_pos rfl] at h
            injection h with h
            injection h with h1 h2
            subst h1
            subst h2
            refine ⟨hs.pbt, hs.pdest, hs.pgraph, hs.plex, ?_⟩
            intro fl hfl f rest hfp
            have hmin : ∀ e ∈ pq, tp ≤ e.1 := popMinE_min hpop
            have hbd : alookup bt dest = some fl.arrive := hs.pbt dest fl hfl
            have hbdt : fl.arrive ≤ tp := by
              obtain ⟨b, hb, hbe⟩ := hs.qbt (tp, airport) (popMin_mem qltE hpop)
              subst hd
              have : b = fl.arrive := by
                have h2 := hb.symm.trans hbd
                injection h2
              omega
            obtain ⟨ho, hm, hed2, hrest⟩ := hfp
            have hfv := getFlights_valid Hval hm
            rcases hs.relaxed start ed hs.sed with hl | hr
            · have htped := hmin (ed, start) hl
              have hmono := feasFrom_mono g dest Hval rest f.dest f.arrive hrest
              omega
            · obtain ⟨c, hc, hce⟩ := hr f hm (by rw [if_pos rfl]; exact hed2)
              exact ebound g start dest ed Hval pq bt prev hs tp hmin fl.arrive hbd
                hbdt rest f.dest f.arrive c hc hce (by omega) hrest
          · simp only [if_neg hd] at h
            exact earliestLoop_exit g start dest ed Hwf Hval fuel _ _ _
              (earliestIter g start dest ed Hwf Hval pq bt prev hs tp airport pq1 hpop hd)
              _ _ h

/-- The initial state of the earliest search satisfies the loop
invariant. -/
theorem estate_init (g : Graph) (start dest : String) (ed : Int) :
    EState g start dest ed [(ed, start)] [(start, ed)] [] := by
  refine ⟨?_, ?_, alookup_cons_self _ _ _, ?_, ?_, ?_, ?_, ?_, ?_⟩
  · intro e he
    simp at he
    subst he
    exact ⟨ed, alookup_cons_self _ _ _, le_refl _⟩
  · intro a b hab
    rw [alookup_cons] at hab
    by_cases ha : a = start
    · simp [ha] at hab
      omega
    · simp [ha, alookup] at hab
  · intro a fl hab
    simp [alookup] at hab
  · intro a fl hab
    simp [alookup] at hab
  · intro a fl hab
    simp [alookup] at hab
  · intro a fl hab
    simp [alookup] at hab
  · intro a b hab
    rw [alookup_cons] at hab
    by_cases ha : a = start
    · simp [ha] at hab
      subst hab
      subst ha
      left
      simp
    · simp [ha, alookup] at hab
  · intro fl hab
    simp [alookup] at hab

/-- A successful walk from a location with a non-empty result starts with
that location's recorded predecessor. -/
theorem walkE_head : ∀ (fuel : Nat) (prev : PMap) (start cur : String) (fl : Flight)
    (fs : List Flight), walkE fuel prev start cur = some (some (fl :: fs)) →
    alookup prev cur = some fl
  | 0, prev, start, cur, fl, fs, h => by simp [walkE] at h
  | fuel + 1, prev, start, cur, fl, fs, h => by
      unfold walkE at h
      by_cases hc : cur = start
      · rw [if_pos hc] at h
        simp at h
      · rw [if_neg hc] at h
        split at h
        · exact absurd h (by simp)
        next fl2 hl =>
          cases hw : walkE fuel prev start fl2.origin with
          | none => rw [hw] at h; exact absurd h (by simp)
          | some o =>
              cases o with
              | none => rw [hw] at h; exact absurd h (by simp)
              | some fs2 =>
                  rw [hw] at h
                  simp at h
                  rw [hl, h.1]

/-- C3: under the data-model invariants, any itinerary returned by
`find_earliest_itinerary` arrives no later than every feasible path from
start to dest (first departure at or after `earliest_departure`, every
connection respecting the layover floor). -/
theorem c3_earliest_is_optimal (g : Graph) (start dest : String) (ed : Int)
    (Hwf : GraphWF g) (Hval : GraphValid g) :
    ∀ it : Itinerary, find_earliest_itinerary g start dest ed = some (some it) →
      ∀ t, it.arrive_time = some t →
        ∀ (f : Flight) (rest : List Flight),
          FeasiblePath g ed start dest (f :: rest) → t ≤ finalArr f.arrive rest := by
  intro it h t ht f rest hfp
  unfold find_earliest_itinerary at h
  split at h
  · exact absurd h (by simp)
  next bt prev hL =>
    have hexit := earliestLoop_exit g start dest ed Hwf Hval _ _ _ _
      (estate_init g start dest ed) _ _ hL
    split at h
    · exact absurd h (by simp)
    · split at h
      · exact absurd h (by simp)
      · exact absurd h (by simp)
      next fs hw =>
        simp at h
        subst h
        cases fs with
        | nil => simp [Itinerary.arrive_time] at ht
        | cons fl fs2 =>
            have hfl := walkE_head _ _ _ _ _ _ hw
            have htt : t = fl.arrive := by
              unfold Itinerary.arrive_time at ht
              simp only [List.getLast?_reverse] at ht
              simp at ht
              omega
            subst htt
            exact hexit.opt fl hfl f rest hfp

/-- C3 witness: instantiated on a concrete graph, returned itinerary and
feasible alternative path. -/
theorem c3_earliest_is_optimal_witness :
    (150 : Int) ≤ finalArr cxF1.arrive [cxF4] :=
  c3_earliest_is_optimal cxG1 "S" "D" 0 (by unfold GraphWF; decide)
    (by unfold GraphValid; decide) ⟨[cxF2, cxF3]⟩ (by decide) 150 (by decide)
    cxF1 [cxF4] (by decide)

/-! ## Termination of both reconstructions and claim C10 -/

/-- Generic rank decrease: a key lexicographically below another has
strictly fewer keys below it. -/
theorem prevRank_lt (bc bt : IMap) (prev : PMap) (next cur : String)
    (hmem : next ∈ (prev.map Prod.fst).toFinset)
    (hlt : lexOrd (lexPair bc bt next) (lexPair bc bt cur)) :
    prevRank bc bt prev next < prevRank bc bt prev cur := by
  unfold prevRank
  apply Finset.card_lt_card
  rw [Finset.ssubset_iff_of_subset]
  · refine ⟨next, ?_, ?_⟩
    · rw [Finset.mem_filter]
      exact ⟨hmem, hlt⟩
    · rw [Finset.mem_filter]
      intro hc
      exact lexOrd_irrefl _ hc.2
  · intro k hk
    rw [Finset.mem_filter] at hk ⊢
    exact ⟨hk.1, lexOrd_trans hk.2 hlt⟩

/-- Unfolding of one non-terminal step of the guarded walk. -/
theorem walkE_cons (fuel : Nat) (prev : PMap) (start cur : String) (hc : cur ≠ start)
    {fl : Flight} (hfl : alookup prev cur = some fl) :
    walkE (fuel + 1) prev start cur =
      (walkE fuel prev start fl.origin).map (Option.map (fl :: ·)) := by
  conv_lhs => unfold walkE
  rw [if_neg hc, hfl]

theorem walkE_start (fuel : Nat) (prev : PMap) (start : String) :
    walkE (fuel + 1) prev start start = some (some []) := by
  unfold walkE
  rw [if_pos rfl]

theorem walkE_missing (fuel : Nat) (prev : PMap) (start cur : String) (hc : cur ≠ start)
    (hfl : alookup prev cur = none) :
    walkE (fuel + 1) prev start cur = some none := by
  conv_lhs => unfold walkE
  rw [if_neg hc, hfl]

/-- The earliest reconstruction terminates within the rank bound: best
times strictly decrease along predecessor links, so the walk cannot
cycle. -/
theorem walkE_safe {g : Graph} {start dest : String} {ed : Int} {bt : IMap} {prev : PMap}
    (hex : EExit g start dest ed bt prev) :
    ∀ (fuel : Nat) (cur : String), prevRank bt bt prev cur + 2 ≤ fuel →
      walkE fuel prev start cur ≠ none
  | 0, cur, hr => by omega
  | fuel + 1, cur, hr => by
      by_cases hc : cur = start
      · subst hc
        rw [walkE_start]
        simp
      · cases hfl : alookup prev cur with
        | none =>
            rw [walkE_missing fuel prev start cur hc hfl]
            simp
        | some fl =>
            rw [walkE_cons fuel prev start cur hc hfl]
            by_cases hos : fl.origin = start
            · cases fuel with
              | zero => omega
              | succ fuel2 =>
                  subst hos
                  rw [walkE_start]
                  simp
            · cases hfo : alookup prev fl.origin with
              | none =>
                  cases fuel with
                  | zero => omega
                  | succ fuel2 =>
                      rw [walkE_missing fuel2 prev start fl.origin hos hfo]
                      simp
              | some fl2 =>
                  have hmem : fl.origin ∈ (prev.map Prod.fst).toFinset :=
                    alookup_isSome_mem_keys (by rw [hfo]; simp)
                  have hlt : lexOrd (lexPair bt bt fl.origin) (lexPair bt bt cur) := by
                    have hcur := hex.pbt cur fl hfl
                    rcases hex.plex cur fl hfl with hp | ⟨tO, htO, hlay⟩
                    · exact absurd hp hos
                    · unfold lexPair lexOrd
                      rw [hcur, htO]
                      left
                      have := hex.pgraph cur fl hfl
                      unfold MIN_LAYOVER_MINUTES at hlay
                      simp only [Option.getD_some]
                      omega
                  have hrlt := prevRank_lt bt bt prev fl.origin cur hmem hlt
                  have hrec := walkE_safe hex fuel fl.origin (by omega)
                  intro hnone
                  rw [Option.map_eq_none'] at hnone
                  exact hrec hnone

/-- C10: under the data-model invariants (well-formed graph, valid times,
non-negative prices), both searches — priority loop and backward
reconstruction included — terminate: the embedding never exhausts its
fuel and never aborts. -/
theorem c10_searches_terminate (g : Graph) (start dest : String) (ed : Int)
    (cab : Cabin) (Hwf : GraphWF g) (Hval : GraphValid g) (Hp : GraphNonneg g) :
    find_earliest_itinerary g start dest ed ≠ none ∧
    find_cheapest_itinerary g start dest ed cab ≠ none := by
  constructor
  · unfold find_earliest_itinerary
    cases hL : earliestLoop g start dest ed (fuelFor g) [(ed, start)] [(start, ed)] [] with
    | none => exact absurd hL (earliestLoop_top_terminates g start dest ed)
    | some r =>
        obtain ⟨bt, prev⟩ := r
        have hexit := earliestLoop_exit g start dest ed Hwf Hval _ _ _ _
          (estate_init g start dest ed) _ _ hL
        show (if alookup prev dest = none ∧ start ≠ dest then some none
          else
            match walkE (prev.length + 1) prev start dest with
            | none => none
            | some none => some none
            | some (some fs) => some (some (⟨fs.reverse⟩ : Itinerary))) ≠ none
        by_cases hcond : alookup prev dest = none ∧ start ≠ dest
        · rw [if_pos hcond]
          simp
        · rw [if_neg hcond]
          have hwalk : walkE (prev.length + 1) prev start dest ≠ none := by
            by_cases hsd : dest = start
            · subst hsd
              rw [walkE_start]
              simp
            · cases hpd : alookup prev dest with
              | none =>
                  rw [walkE_missing prev.length prev start dest hsd hpd]
                  simp
              | some fl =>
                  have hdmem : dest ∈ (prev.map Prod.fst).toFinset :=
                    alookup_isSome_mem_keys (by rw [hpd]; simp)
                  refine walkE_safe hexit (prev.length + 1) dest ?_
                  have hsub : (prev.map Prod.fst).toFinset.filter
                      (fun k => lexOrd (lexPair bt bt k) (lexPair bt bt dest)) ⊆
                      ((prev.map Prod.fst).toFinset).erase dest := by
                    intro k hk
                    rw [Finset.mem_filter] at hk
                    rw [Finset.mem_erase]
                    refine ⟨?_, hk.1⟩
                    intro hkd
                    subst hkd
                    exact lexOrd_irrefl _ hk.2
                  have h1 : prevRank bt bt prev dest ≤
                      ((prev.map Prod.fst).toFinset).card - 1 := by
                    have := Finset.card_le_card hsub
                    rwa [Finset.card_erase_of_mem hdmem] at this
                  have h2 : ((prev.map Prod.fst).toFinset).card ≤ prev.length := by
                    have := List.toFinset_card_le (prev.map Prod.fst)
                    rwa [List.length_map] at this
                  have h3 : 1 ≤ ((prev.map Prod.fst).toFinset).card :=
                    Finset.card_pos.mpr ⟨dest, hdmem⟩
                  omega
          cases hwe : walkE (prev.length + 1) prev start dest with
          | none => exact absurd hwe hwalk
          | some o =>
              cases o with
              | none => simp
              | some fs => simp
  · unfold find_cheapest_itinerary
    cases hL : cheapestLoop g start dest ed cab (fuelFor g)
        [(0, ed, start)] [(start, 0)] [(start, ed)] [] with
    | none =>
        exact absurd hL
          (cheapestLoop_top_terminates g start dest ed cab (price_for_nonneg Hp cab))
    | some r =>
        obtain ⟨bc, bt, prev⟩ := r
        show (if alookup prev dest = none then some none
          else
            match walkC (prev.length + 1) prev start dest with
            | .fuelOut => none
            | .keyMissing => none
            | .ok fs => some (some (⟨fs.reverse⟩ : Itinerary))) ≠ none
        by_cases hcond : alookup prev dest = none
        · rw [if_pos hcond]
          simp
        · rw [if_neg hcond]
          have hdsome : (alookup prev dest).isSome := by
            cases hpd : alookup prev dest with
            | none => exact absurd hpd hcond
            | some fl => simp
          obtain ⟨fs, hfs⟩ := cheapest_reconstruction_ok g start dest ed cab Hwf Hval
            (price_for_nonneg Hp cab) bc bt prev hL hdsome
          rw [hfs]
          simp

/-- C10 witness: concrete termination on the counterexample graph. -/
theorem c10_searches_terminate_witness :
    find_earliest_itinerary cxG1 "S" "D" 0 ≠ none ∧
    find_cheapest_itinerary cxG1 "S" "D" 0 .economy ≠ none :=
  c10_searches_terminate cxG1 "S" "D" 0 .economy (by unfold GraphWF; decide)
    (by unfold GraphValid; decide) (by unfold GraphNonneg; decide)

end FlightPlanner
